import Mathlib

/-!
# Verification of the c99-vectordb core against its specification

This file gives a shallow embedding, in Lean 4, of the core data structures and
algorithms of the `c99-vectordb` repository (files `src/metadata.c`,
`src/tokenizer.c`, `src/vectordb.c`, `src/inference.c`, `src/main.c`), and proves
or refutes the specification claims about them.

Modelling conventions:
* C strings (`char*`, NUL-terminated, no interior NUL) are `List Char`, one `Char`
  per byte; `strncmp` byte order coincides with `Char.toNat` order for the byte
  range.
* Machine integers are `Nat`/`Int` with explicit clamping where the C code can
  overflow (`strtoll` clamps to the `s64` range).
* `f32` values are modelled as exact rationals or reals where a claim is about
  arithmetic, and as opaque 32-bit words (`Nat`) where a claim is only about
  copying/serialisation of the bits.
* Loops in the C source that advance a cursor through a string are modelled by
  structural recursion on the string; the handful of loops in `metadata.c` that
  can fail to make progress (and then spin forever in C) are modelled with a
  fuel argument that is at least the remaining string length plus one, so the
  model agrees with the C code on every terminating execution.
-/

/-! ## metadata.c — minimal YAML-flow scanner -/

/-- A C string: one `Char` per byte. -/
abbrev CStr := List Char

/-- Head test on a cursor (`*p == c`). -/
def headIs (p : CStr) (c : Char) : Bool :=
  match p with
  | [] => false
  | d :: _ => d = c

/-- Whitespace recognised by `skip_ws` in metadata.c (space and tab). -/
def isWsChar (c : Char) : Bool := c = ' ' || c = '\t'

/-- `skip_ws` from metadata.c: skip leading spaces and tabs. -/
def skip_ws : CStr → CStr
  | [] => []
  | c :: cs => if isWsChar c then skip_ws cs else c :: cs

/-- The token delimiters of `read_token` in metadata.c. -/
def isDelimChar (c : Char) : Bool :=
  c = ',' || c = ':' || c = '{' || c = '}' || c = '[' || c = ']' || c = ' ' || c = '\t'

/-- The scanning part of `read_token`: take bytes up to the first delimiter. -/
def read_token_go : CStr → CStr × CStr
  | [] => ([], [])
  | c :: cs =>
    if isDelimChar c then ([], c :: cs)
    else
      let r := read_token_go cs
      (c :: r.1, r.2)

/-- `read_token` from metadata.c: skip whitespace, then read a bare token up to
a delimiter.  Returns the token and the remaining input. -/
def read_token (p : CStr) : CStr × CStr := read_token_go (skip_ws p)

/-- ASCII decimal digit test (`s[i] >= '0' && s[i] <= '9'`). -/
def isDigitChar (c : Char) : Bool := decide ('0' ≤ c) && decide (c ≤ '9')

/-- `is_int_str` from metadata.c: optional leading sign followed by at least one
decimal digit, nothing else. -/
def is_int_str : CStr → Bool
  | [] => false
  | c :: cs =>
    if c = '+' || c = '-' then (!cs.isEmpty) && cs.all isDigitChar
    else (c :: cs).all isDigitChar

/-- Value of a run of decimal digit characters, most significant first. -/
def digitsVal (s : CStr) : Nat := s.foldl (fun a c => 10 * a + (c.toNat - 48)) 0

/-- `LLONG_MAX`, the clamp value of `strtoll` on positive overflow. -/
def INT64_MAX : Int := 2 ^ 63 - 1

/-- `LLONG_MIN`, the clamp value of `strtoll` on negative overflow. -/
def INT64_MIN : Int := -(2 ^ 63)

/-- `parse_int` from metadata.c: copy at most 63 bytes into a buffer and run
`strtoll(buf, NULL, 10)`: optional sign, leading digit run, clamped to the
`long long` range on overflow. -/
def parse_int (s : CStr) : Int :=
  let t := s.take 63
  let sgn : Int := if headIs t '-' then -1 else 1
  let body := if headIs t '-' || headIs t '+' then t.tail else t
  let v : Int := sgn * (digitsVal (body.takeWhile isDigitChar) : Nat)
  if v > INT64_MAX then INT64_MAX else if v < INT64_MIN then INT64_MIN else v

/-- `MetaVal` from metadata.h: an integer, a bare string (also used for raw
operator sub-maps), or an array of bare strings. -/
inductive MetaVal where
  | int (i : Int)
  | str (s : CStr)
  | arr (items : List CStr)
deriving Repr, DecidableEq

/-- `MetaField` from metadata.h: one key/value pair. -/
abbrev MetaField := CStr × MetaVal

/-- `MetaRecord` from metadata.h: the parsed fields, in order. -/
abbrev MetaRecord := List MetaField

/-- The `while (*p && *p != ']')` loop of `parse_array` in metadata.c.  Each
iteration reads one bare token (stored while fewer than 64 items are held) and
skips a following comma.  An iteration that reads an empty token and does not
sit on a comma makes no progress: the C code spins forever there, the model
runs out of fuel and returns; fuel `length + 2` is enough for every
terminating C execution. -/
def parse_array_go : Nat → CStr → List CStr → List CStr × CStr
  | 0, p, items => (items, p)
  | _ + 1, [], items => (items, [])
  | fuel + 1, c :: cs, items =>
    if c = ']' then (items, c :: cs)
    else
      let p1 := skip_ws (c :: cs)
      if headIs p1 ']' then (items, p1)
      else
        let tr := read_token p1
        let items2 := if tr.1 ≠ [] ∧ items.length < 64 then items ++ [tr.1] else items
        let p3 := skip_ws tr.2
        let p4 := if headIs p3 ',' then p3.tail else p3
        parse_array_go fuel p4 items2

/-- `parse_array` from metadata.c: `[item1, item2, ...]` — an array of bare
tokens (at most 64 stored). -/
def parse_array (p : CStr) : MetaVal × CStr :=
  let p1 := skip_ws p
  let p2 := if headIs p1 '[' then p1.tail else p1
  let r := parse_array_go (p2.length + 2) p2 []
  let p3 := if headIs r.2 ']' then r.2.tail else r.2
  (MetaVal.arr r.1, p3)

/-- `parse_value` from metadata.c: an array, an integer token, or a bare string
token. -/
def parse_value (p : CStr) : MetaVal × CStr :=
  let p1 := skip_ws p
  if headIs p1 '[' then parse_array p1
  else
    let tr := read_token p1
    if is_int_str tr.1 then (MetaVal.int (parse_int tr.1), tr.2)
    else (MetaVal.str tr.1, tr.2)

/-- The balanced-brace scan in `parse_fields` of metadata.c (value starting with
`\x7b`): consume up to and including the brace that brings the depth back to
zero; consume the whole rest of the input if the braces never balance.  `d` is
the current depth (at least 1). -/
def captureBraces_go : Nat → CStr → CStr × CStr
  | _, [] => ([], [])
  | d, c :: cs =>
    let d2 : Nat := if c = '{' then d + 1 else if c = '}' then d - 1 else d
    if c = '}' ∧ d2 = 0 then ([c], cs)
    else
      let r := captureBraces_go d2 cs
      (c :: r.1, r.2)

/-- Raw capture of a `\x7b...\x7d` sub-map value, brace characters included. -/
def captureBraces : CStr → CStr × CStr
  | '{' :: cs =>
    let r := captureBraces_go 1 cs
    ('{' :: r.1, r.2)
  | p => ([], p)

/-- `parse_fields` from metadata.c: parse up to `max_fields` key/value pairs.
The recursion is on the remaining field budget (32 at the top level), exactly
as in the C loop `while (*p && count < max_fields)`. -/
def parse_fields : Nat → CStr → MetaRecord
  | 0, _ => []
  | maxf + 1, p0 =>
    match skip_ws p0 with
    | [] => []
    | c :: cs =>
      if c = '}' ∨ c = ']' then []
      else
        let kr := read_token (c :: cs)
        if kr.1 = [] then []
        else
          let p2 := skip_ws kr.2
          let p3 := if headIs p2 ':' then p2.tail else p2
          let p4 := skip_ws p3
          let vr : MetaVal × CStr :=
            if headIs p4 '{' then
              let cb := captureBraces p4
              (MetaVal.str cb.1, cb.2)
            else parse_value p4
          let p6 := skip_ws vr.2
          let p7 := if headIs p6 ',' then p6.tail else p6
          (kr.1, vr.1) :: parse_fields maxf p7

/-- `MetaStore_Parse` from metadata.c: strip optional outer brace, then parse at
most 32 fields.  (`NULL`/empty inputs are handled by the callers in the
model.) -/
def MetaStore_Parse (s : CStr) : MetaRecord :=
  let p := skip_ws s
  let p2 := if headIs p '{' then p.tail else p
  parse_fields 32 p2

/-! ## metadata.c — filter evaluation -/

/-- `meta_val_cmp` from metadata.c.  Only the sign of the result is used by the
callers; the string branch returns the sign of `strncmp` over the common
prefix, then the length difference (i.e. lexicographic byte order). -/
def lexCmp : CStr → CStr → Int
  | [], [] => 0
  | [], _ :: _ => -1
  | _ :: _, [] => 1
  | a :: as, b :: bs => if a = b then lexCmp as bs else (a.toNat : Int) - (b.toNat : Int)

/-- `meta_val_cmp` from metadata.c: an `INT` value compares numerically against
an integer token and is otherwise smaller than everything; a `STRING` value
compares in lexicographic byte order; arrays do not compare with ordinal
operators. -/
def meta_val_cmp (val : MetaVal) (cmp : CStr) : Int :=
  match val with
  | .int i =>
    if is_int_str cmp then
      if i < parse_int cmp then -1 else if i > parse_int cmp then 1 else 0
    else -1
  | .str s => lexCmp s cmp
  | .arr _ => -1

/-- `meta_val_eq` from metadata.c: integer by value against an integer token,
string by byte equality, array by membership of the token. -/
def meta_val_eq (val : MetaVal) (tok : CStr) : Bool :=
  match val with
  | .int i => is_int_str tok && decide (i = parse_int tok)
  | .str s => decide (s = tok)
  | .arr items => items.any fun it => decide (it = tok)

/-- `meta_val_prefix` from metadata.c (renamed): true when the value is a string
beginning with the given bytes. -/
def meta_val_startsWith (val : MetaVal) (pfx : CStr) : Bool :=
  match val with
  | .str s => decide (pfx <+: s)
  | _ => false

/-- `meta_val_contains` from metadata.c: true when the value is an array with a
member equal to the given token. -/
def meta_val_contains (val : MetaVal) (elem : CStr) : Bool :=
  match val with
  | .arr items => items.any fun it => decide (it = elem)
  | _ => false

/-- `find_field` from metadata.c: first field with the given key. -/
def find_field : MetaRecord → CStr → Option MetaVal
  | [], _ => none
  | (k, v) :: rest, key => if k = key then some v else find_field rest key

/-- Digit-accumulating loop for decimal printing (fuel-indexed so that the
kernel can evaluate it; `fuel ≥ n` suffices). -/
def natToDecimal_go : Nat → Nat → CStr → CStr
  | 0, _, acc => acc
  | fuel + 1, n, acc =>
    if n = 0 then acc
    else natToDecimal_go fuel (n / 10) (Nat.digitChar (n % 10) :: acc)

/-- Decimal digit string of a natural number, as produced by `snprintf`
`%lld` for non-negative values. -/
def natToDecimal (n : Nat) : CStr :=
  if n = 0 then ['0'] else natToDecimal_go (n + 1) n []

theorem natToDecimal_go_spec (n : Nat) : ∀ (fuel : Nat) (acc : CStr), n ≤ fuel →
    natToDecimal_go fuel n acc = ((Nat.digits 10 n).map Nat.digitChar).reverse ++ acc := by
  induction n using Nat.strong_induction_on with
  | _ n ih =>
    intro fuel acc hfuel
    match fuel with
    | 0 =>
      have hn : n = 0 := by omega
      subst hn
      simp [natToDecimal_go]
    | fuel + 1 =>
      rw [natToDecimal_go]
      by_cases h0 : n = 0
      · subst h0; simp
      · rw [if_neg h0]
        have hdiv : n / 10 < n := Nat.div_lt_self (Nat.pos_of_ne_zero h0) (by norm_num)
        have hdivfuel : n / 10 ≤ fuel := by omega
        rw [ih (n / 10) hdiv fuel _ hdivfuel]
        rw [Nat.digits_def' (by norm_num : (1 : Nat) < 10) (Nat.pos_of_ne_zero h0)]
        simp [List.reverse_cons, List.append_assoc]

/-- `natToDecimal` agrees with the base-10 digit expansion. -/
theorem natToDecimal_eq (n : Nat) :
    natToDecimal n = if n = 0 then ['0'] else ((Nat.digits 10 n).map Nat.digitChar).reverse := by
  unfold natToDecimal
  by_cases h0 : n = 0
  · simp [h0]
  · rw [if_neg h0, if_neg h0, natToDecimal_go_spec n (n + 1) [] (by omega), List.append_nil]

/-- Decimal string of an `s64` as produced by `snprintf("%lld")`. -/
def intToDecimal (i : Int) : CStr :=
  if i < 0 then '-' :: natToDecimal (-i).toNat else natToDecimal i.toNat

/-- The operand-to-token rendering of `eval_condition` in metadata.c: a string
operand is used verbatim, an integer operand is printed with
`snprintf("%lld")`, an array operand leaves `cmp_str` empty (`NULL` with
length 0 in C; no byte of it is ever read). -/
def cmpTok (ov : MetaVal) : CStr :=
  match ov with
  | .str t => t
  | .int i => intToDecimal i
  | .arr _ => []

/-- Operator-name test of `eval_condition`: `op_len >= n && strncmp(op_start,
lit, n) == 0`, i.e. the first `lit.length` bytes of `op` are `lit`. -/
def opIs (op lit : CStr) : Bool :=
  lit.length ≤ op.length && decide (op.take lit.length = lit)

def gteLit : CStr := ['$', 'g', 't', 'e']

def lteLit : CStr := ['$', 'l', 't', 'e']

def neLit : CStr := ['$', 'n', 'e']

def prefLit : CStr := ['$', 'p', 'r', 'e', 'f', 'i', 'x']

def contLit : CStr := ['$', 'c', 'o', 'n', 't', 'a', 'i', 'n', 's']

def andLit : CStr := ['$', 'a', 'n', 'd']

def orLit : CStr := ['$', 'o', 'r']

/-- `eval_condition` from metadata.c: evaluate one filter field `(fkey, fval)`
against a data record.  A missing data field fails.  A `fval` that is a raw
sub-map string `\x7b$op: operand\x7d` is re-parsed: the operator is matched by
its leading bytes, the operand is rendered to a comparison token.  A bare
`fval` is an equality test. -/
def eval_condition (data : MetaRecord) (fkey : CStr) (fval : MetaVal) : Bool :=
  match find_field data fkey with
  | none => false
  | some dval =>
    match fval with
    | .str s =>
      if headIs s '{' then
        let p1 := skip_ws s.tail
        let opr := read_token p1
        let p2 := skip_ws opr.2
        let p3 := if headIs p2 ':' then p2.tail else p2
        let p4 := skip_ws p3
        let ov := parse_value p4
        let cmp : CStr := cmpTok ov.1
        if opIs opr.1 gteLit then decide (meta_val_cmp dval cmp ≥ 0)
        else if opIs opr.1 lteLit then decide (meta_val_cmp dval cmp ≤ 0)
        else if opIs opr.1 neLit then !(meta_val_eq dval cmp)
        else if opIs opr.1 prefLit then meta_val_startsWith dval cmp
        else if opIs opr.1 contLit then meta_val_contains dval cmp
        else false
      else meta_val_eq dval s
    | .int i => meta_val_eq dval (intToDecimal i)
    | .arr _ => false

/-- The balanced-brace scan inside `eval_logical_array` of metadata.c: consume
up to and including the brace closing the current depth (`d ≥ 1`); if the
braces never balance, consume everything. -/
def scanBalanced : Nat → CStr → CStr × CStr
  | _, [] => ([], [])
  | d, c :: cs =>
    let d2 : Nat := if c = '{' then d + 1 else if c = '}' then d - 1 else d
    if c = '}' ∧ d2 = 0 then ([c], cs)
    else
      let r := scanBalanced d2 cs
      (c :: r.1, r.2)

mutual

/-- `eval_filter_record` from metadata.c, on the parsed field list: all filter
fields must pass (implicit AND, with early exit).  `$and`/`$or` keys whose
value is a raw string are delegated to `eval_logical_array`; with any other
value type they are skipped.  `fuel` bounds the `$and`/`$or` recursion depth
(the C recursion depth is bounded by the filter string length). -/
def eval_filter_fields : Nat → MetaRecord → MetaRecord → Bool
  | _, _, [] => true
  | fuel, data, (key, fval) :: rest =>
    if key = andLit then
      (match fval with
       | .str s => eval_logical fuel data s false && eval_filter_fields fuel data rest
       | _ => eval_filter_fields fuel data rest)
    else if key = orLit then
      (match fval with
       | .str s => eval_logical fuel data s true && eval_filter_fields fuel data rest
       | _ => eval_filter_fields fuel data rest)
    else
      eval_condition data key fval && eval_filter_fields fuel data rest
  termination_by fuel _ filt => (fuel, 2, 0, filt.length)

/-- Entry of `eval_logical_array` from metadata.c: skip an optional `[`, then
iterate over `\x7b...\x7d` items. -/
def eval_logical : Nat → MetaRecord → CStr → Bool → Bool
  | fuel, data, body, is_or =>
    let p := skip_ws body
    let p2 := if headIs p '[' then p.tail else p
    eval_logical_go fuel (p2.length + 2) data p2 is_or
  termination_by fuel _ _ _ => (fuel, 1, 0, 0)

/-- The item loop of `eval_logical_array`: each `\x7b...\x7d` item is re-parsed
and evaluated recursively; `$or` returns true on the first pass, `$and` false
on the first failure; at the end of the list `$and` passes and `$or` fails.
An iteration sitting on a byte that is neither `\x7b`, `,` nor `]` makes no
progress (the C code spins forever); the model spends loop fuel `lf`
(`length + 2` at entry, enough for every terminating C execution). -/
def eval_logical_go : Nat → Nat → MetaRecord → CStr → Bool → Bool
  | _, 0, _, _, is_or => !is_or
  | fuel, lf + 1, data, p, is_or =>
    match skip_ws p with
    | [] => !is_or
    | c :: cs =>
      if c = ']' then !is_or
      else if c = '{' then
        let sb := scanBalanced 1 cs
        let inner := sb.1.dropLast
        let sub := MetaStore_Parse inner
        let result :=
          match fuel with
          | 0 => true
          | f + 1 => eval_filter_fields f data sub
        if is_or && result then true
        else if !is_or && !result then false
        else
          let p2 := skip_ws sb.2
          let p3 := if headIs p2 ',' then p2.tail else p2
          eval_logical_go fuel lf data p3 is_or
      else
        let p3 := if c = ',' then cs else c :: cs
        eval_logical_go fuel lf data p3 is_or
  termination_by fuel lf _ _ _ => (fuel, 0, lf, 0)

end

/-- `eval_filter_record` from metadata.c (wrapper over the field loop). -/
def eval_filter_record (fuel : Nat) (data filt : MetaRecord) : Bool :=
  eval_filter_fields fuel data filt

/-- The metadata store: `raw[i]` is the verbatim flow string of record `i`, or
`none` when the record has no metadata. -/
structure MetaStore where
  raw : List (Option CStr)
  capacity : Nat
deriving Repr, DecidableEq

/-- `MetaStore_Add` from metadata.c: fails with `-1` at capacity; a `NULL` or
empty string is stored as `NULL` (`none`); otherwise the string is copied.
Returns the new store and the assigned id (the old count). -/
def MetaStore_Add (ms : MetaStore) (yaml_flow : Option CStr) : MetaStore × Int :=
  if ms.raw.length ≥ ms.capacity then (ms, -1)
  else
    let stored : Option CStr :=
      match yaml_flow with
      | some (c :: cs) => some (c :: cs)
      | _ => none
    ({ ms with raw := ms.raw ++ [stored] }, (ms.raw.length : Int))

/-- `MetaStore_Filter` from metadata.c: zero the whole mask, parse the filter
once, then for each record below `min mask_len count`: records without
metadata get `0`, others get the result of `eval_filter_record`.  The fuel
passed to the evaluator covers the `$and`/`$or` nesting depth, which the C
recursion bounds by the filter string length. -/
def MetaStore_Filter (ms : MetaStore) (filter_expr : CStr) (mask_len : Nat) : List Nat :=
  let filt := MetaStore_Parse filter_expr
  let n := min mask_len ms.raw.length
  (List.range mask_len).map fun i =>
    if i < n then
      match ms.raw.getD i none with
      | none => 0
      | some r =>
        if eval_filter_record (filter_expr.length + 1) (MetaStore_Parse r) filt then 1 else 0
    else 0

/-! ## Decimal rendering round-trip

`eval_condition` renders an integer operand back to its decimal string with
`snprintf("%lld")` and re-parses it during comparison; these lemmas show that
the round trip is the identity on the `s64` range. -/

theorem digitsVal_append (s : CStr) (c : Char) :
    digitsVal (s ++ [c]) = 10 * digitsVal s + (c.toNat - 48) := by
  simp [digitsVal, List.foldl_append]

theorem digitsVal_rev_map (L : List Nat) (h : ∀ d ∈ L, d < 10) :
    digitsVal ((L.map Nat.digitChar).reverse) = Nat.ofDigits 10 L := by
  induction L with
  | nil => simp [digitsVal, Nat.ofDigits]
  | cons d L ih =>
    have hd : d < 10 := h d (List.mem_cons_self d L)
    have hchar : (Nat.digitChar d).toNat = 48 + d := by interval_cases d <;> rfl
    simp only [List.map_cons, List.reverse_cons, digitsVal_append]
    rw [ih (fun e he => h e (List.mem_cons_of_mem _ he)), hchar]
    simp [Nat.ofDigits_cons]
    ring

theorem digitsVal_natToDecimal (n : Nat) : digitsVal (natToDecimal n) = n := by
  rw [natToDecimal_eq]
  by_cases h : n = 0
  · subst h; decide
  · simp only [h, if_false]
    rw [digitsVal_rev_map _ (fun d hd => Nat.digits_lt_base (by norm_num) hd)]
    exact Nat.ofDigits_digits 10 n

theorem natToDecimal_all_digits (n : Nat) : ∀ c ∈ natToDecimal n, isDigitChar c = true := by
  intro c hc
  rw [natToDecimal_eq] at hc
  by_cases h : n = 0
  · subst h; simp at hc; subst hc; decide
  · simp only [h, if_false, List.mem_reverse, List.mem_map] at hc
    obtain ⟨d, hd, rfl⟩ := hc
    have : d < 10 := Nat.digits_lt_base (by norm_num) hd
    interval_cases d <;> decide

theorem natToDecimal_ne_nil (n : Nat) : natToDecimal n ≠ [] := by
  rw [natToDecimal_eq]
  by_cases h : n = 0
  · simp [h]
  · simp only [h, if_false]
    intro hcon
    have hne : Nat.digits 10 n ≠ [] := Nat.digits_ne_nil_iff_ne_zero.mpr h
    simp at hcon
    exact hne hcon

theorem natToDecimal_length_le (n : Nat) (h : n ≤ 2 ^ 63) :
    (natToDecimal n).length ≤ 20 := by
  rw [natToDecimal_eq]
  by_cases h0 : n = 0
  · simp [h0]
  · simp only [h0, if_false, List.length_reverse, List.length_map]
    by_contra hlen
    push_neg at hlen
    have hpow := Nat.base_pow_length_digits_le 10 n (by norm_num) h0
    have h20 : (10 : Nat) ^ 21 ≤ 10 ^ (Nat.digits 10 n).length :=
      Nat.pow_le_pow_right (by norm_num) hlen
    have : (10 : Nat) ^ 21 ≤ 10 * n := le_trans h20 hpow
    have : (10 : Nat) ^ 21 ≤ 10 * 2 ^ 63 := le_trans this (by omega)
    norm_num at this

theorem headIs_natToDecimal_neg (n : Nat) : headIs (natToDecimal n) '-' = false := by
  rcases hcons : natToDecimal n with _ | ⟨c, cs⟩
  · exact absurd hcons (natToDecimal_ne_nil n)
  · have hc : isDigitChar c = true :=
      natToDecimal_all_digits n c (hcons ▸ List.mem_cons_self c cs)
    simp only [headIs]
    rw [decide_eq_false_iff_not]
    rintro rfl
    exact absurd hc (by decide)

theorem headIs_natToDecimal_pos (n : Nat) : headIs (natToDecimal n) '+' = false := by
  rcases hcons : natToDecimal n with _ | ⟨c, cs⟩
  · exact absurd hcons (natToDecimal_ne_nil n)
  · have hc : isDigitChar c = true :=
      natToDecimal_all_digits n c (hcons ▸ List.mem_cons_self c cs)
    simp only [headIs]
    rw [decide_eq_false_iff_not]
    rintro rfl
    exact absurd hc (by decide)

theorem parse_int_intToDecimal (m : Int) (h1 : INT64_MIN ≤ m) (h2 : m ≤ INT64_MAX) :
    parse_int (intToDecimal m) = m := by
  by_cases hm : m < 0
  · have hm' : intToDecimal m = '-' :: natToDecimal (-m).toNat := by
      simp [intToDecimal, hm]
    have hlen : (natToDecimal (-m).toNat).length ≤ 20 := by
      apply natToDecimal_length_le
      have : -m ≤ 2 ^ 63 := by
        simp only [INT64_MIN] at h1
        omega
      omega
    have htake : ('-' :: natToDecimal (-m).toNat).take 63 = '-' :: natToDecimal (-m).toNat := by
      apply List.take_of_length_le
      simp
      omega
    have htw : (natToDecimal (-m).toNat).takeWhile isDigitChar = natToDecimal (-m).toNat :=
      List.takeWhile_eq_self_iff.mpr (natToDecimal_all_digits _)
    simp only [parse_int, hm', htake]
    have hhead : headIs ('-' :: natToDecimal (-m).toNat) '-' = true := by simp [headIs]
    simp only [hhead, Bool.true_or, if_true, List.tail_cons, htw, digitsVal_natToDecimal]
    have hval : (-1 : Int) * ((-m).toNat : Int) = m := by omega
    rw [hval]
    simp only [INT64_MAX, INT64_MIN] at h1 h2 ⊢
    omega
  · push_neg at hm
    have hm' : intToDecimal m = natToDecimal m.toNat := by
      simp [intToDecimal, not_lt.mpr hm]
    have hlen : (natToDecimal m.toNat).length ≤ 20 := by
      apply natToDecimal_length_le
      simp only [INT64_MAX] at h2
      omega
    have htake : (natToDecimal m.toNat).take 63 = natToDecimal m.toNat :=
      List.take_of_length_le (by omega)
    have htw : (natToDecimal m.toNat).takeWhile isDigitChar = natToDecimal m.toNat :=
      List.takeWhile_eq_self_iff.mpr (natToDecimal_all_digits _)
    simp only [parse_int, hm', htake, headIs_natToDecimal_neg, headIs_natToDecimal_pos]
    simp only [Bool.false_eq_true, if_false, Bool.or_self, htw, digitsVal_natToDecimal, one_mul]
    simp only [INT64_MAX, INT64_MIN] at h1 h2 ⊢
    split_ifs <;> omega

theorem is_int_str_intToDecimal (m : Int) : is_int_str (intToDecimal m) = true := by
  by_cases hm : m < 0
  · have hm' : intToDecimal m = '-' :: natToDecimal (-m).toNat := by
      simp [intToDecimal, hm]
    rw [hm']
    simp only [is_int_str]
    rw [if_pos (by decide)]
    rcases hcons : natToDecimal (-m).toNat with _ | ⟨c, cs⟩
    · exact absurd hcons (natToDecimal_ne_nil _)
    · have hall : ∀ x ∈ c :: cs, isDigitChar x = true := by
        rw [← hcons]; exact natToDecimal_all_digits _
      simp [List.all_eq_true.mpr hall]
  · push_neg at hm
    have hm' : intToDecimal m = natToDecimal m.toNat := by
      simp [intToDecimal, not_lt.mpr hm]
    rw [hm']
    rcases hcons : natToDecimal m.toNat with _ | ⟨c, cs⟩
    · exact absurd hcons (natToDecimal_ne_nil _)
    · have hall : ∀ x ∈ c :: cs, isDigitChar x = true := by
        rw [← hcons]; exact natToDecimal_all_digits _
      have hc : isDigitChar c = true := hall c (List.mem_cons_self c cs)
      simp only [is_int_str]
      rw [if_neg]
      · exact List.all_eq_true.mpr hall
      · simp only [Bool.or_eq_true, decide_eq_true_eq, not_or]
        constructor <;> · rintro rfl; exact absurd hc (by decide)

/-! ## Claim-side specification of operator conditions (C3)

`eval_condition_table` below is written from the wording of claim C3 / §4.7
of the spec (as amended: operator names are matched by their leading bytes).
The comparison token of an operand follows the code paths: a string operand is
used verbatim, an integer operand is rendered in decimal, an array operand has
no token. -/

/-- Claim-side `$gte`: numeric when both sides are integers, lexicographic byte
order on strings; an integer field compared to a non-integer operand, and an
array field, fail. -/
def specGe (dval : MetaVal) (ov : MetaVal) : Bool :=
  match dval, ov with
  | .int n, .int m => decide (m ≤ n)
  | .int n, .str t => is_int_str t && decide (parse_int t ≤ n)
  | .int _, .arr _ => false
  | .str s, o => decide (0 ≤ lexCmp s (cmpTok o))
  | .arr _, _ => false

/-- Claim-side `$lte`: numeric when both sides are integers, lexicographic byte
order on strings; the `meta_val_cmp` convention makes an integer field compared
to a non-integer operand, and an array field, pass (the comparison yields -1). -/
def specLe (dval : MetaVal) (ov : MetaVal) : Bool :=
  match dval, ov with
  | .int n, .int m => decide (n ≤ m)
  | .int n, .str t => !is_int_str t || decide (n ≤ parse_int t)
  | .int _, .arr _ => true
  | .str s, o => decide (lexCmp s (cmpTok o) ≤ 0)
  | .arr _, _ => true

/-- Claim-side equality (used by `$ne` and by bare values): integers by value,
strings by byte equality, arrays by membership of the operand token. -/
def specEq (dval : MetaVal) (ov : MetaVal) : Bool :=
  match dval, ov with
  | .int n, .int m => decide (n = m)
  | .int n, .str t => is_int_str t && decide (n = parse_int t)
  | .int _, .arr _ => false
  | .str s, o => decide (s = cmpTok o)
  | .arr items, o => items.any fun it => decide (it = cmpTok o)

/-- Claim-side `$prefix`: the field is a string starting with the operand. -/
def specStartsWith (dval : MetaVal) (ov : MetaVal) : Bool :=
  match dval with
  | .str s => decide (cmpTok ov <+: s)
  | _ => false

/-- Claim-side `$contains`: the field is an array containing the operand. -/
def specHasMember (dval : MetaVal) (ov : MetaVal) : Bool :=
  match dval with
  | .arr items => items.any fun it => decide (it = cmpTok ov)
  | _ => false

/-- The operator table of claim C3, amended: the sub-map string is decomposed
exactly as `eval_condition` decomposes it (skip the brace, read the operator
token, skip the colon, parse the operand), operators are recognised by their
leading bytes, in the order the code tests them, any other operator fails, and
a missing data field fails. -/
def eval_condition_table (data : MetaRecord) (fkey : CStr) (s : CStr) : Bool :=
  match find_field data fkey with
  | none => false
  | some dval =>
    let p1 := skip_ws s.tail
    let opr := read_token p1
    let p2 := skip_ws opr.2
    let p3 := if headIs p2 ':' then p2.tail else p2
    let p4 := skip_ws p3
    let ov := (parse_value p4).1
    if opIs opr.1 gteLit then specGe dval ov
    else if opIs opr.1 lteLit then specLe dval ov
    else if opIs opr.1 neLit then !(specEq dval ov)
    else if opIs opr.1 prefLit then specStartsWith dval ov
    else if opIs opr.1 contLit then specHasMember dval ov
    else false

/-- Any integer produced by `parse_int` lies in the `s64` range. -/
theorem parse_int_bounds (s : CStr) :
    INT64_MIN ≤ parse_int s ∧ parse_int s ≤ INT64_MAX := by
  simp only [parse_int]
  constructor <;> · split_ifs <;> simp_all [INT64_MIN, INT64_MAX]

/-- An integer operand produced by `parse_value` lies in the `s64` range. -/
theorem parse_value_int_bounds (p : CStr) (i : Int) (h : (parse_value p).1 = .int i) :
    INT64_MIN ≤ i ∧ i ≤ INT64_MAX := by
  have hb := parse_int_bounds (read_token (skip_ws p)).1
  simp only [parse_value] at h
  split_ifs at h <;> simp_all [parse_array]

/-- The `s64` range hypothesis under which the decimal round trip is exact. -/
def inS64 (ov : MetaVal) : Prop :=
  ∀ i, ov = .int i → INT64_MIN ≤ i ∧ i ≤ INT64_MAX

theorem meta_val_cmp_ge_spec (dval ov : MetaVal) (hov : inS64 ov) :
    decide (meta_val_cmp dval (cmpTok ov) ≥ 0) = specGe dval ov := by
  cases dval with
  | int n =>
    cases ov with
    | int m =>
      obtain ⟨h1, h2⟩ := hov m rfl
      simp only [cmpTok, meta_val_cmp, specGe, is_int_str_intToDecimal,
        parse_int_intToDecimal m h1 h2, if_true]
      split_ifs <;> simp <;> omega
    | str t =>
      simp only [cmpTok, meta_val_cmp, specGe]
      cases hint : is_int_str t with
      | false => simp [hint]
      | true =>
        simp only [hint, if_true, Bool.true_and]
        split_ifs <;> simp <;> omega
    | arr items => simp [cmpTok, meta_val_cmp, specGe, is_int_str]
  | str s2 => cases ov <;> simp [meta_val_cmp, specGe, ge_iff_le]
  | arr items => cases ov <;> simp [meta_val_cmp, specGe]

theorem meta_val_cmp_le_spec (dval ov : MetaVal) (hov : inS64 ov) :
    decide (meta_val_cmp dval (cmpTok ov) ≤ 0) = specLe dval ov := by
  cases dval with
  | int n =>
    cases ov with
    | int m =>
      obtain ⟨h1, h2⟩ := hov m rfl
      simp only [cmpTok, meta_val_cmp, specLe, is_int_str_intToDecimal,
        parse_int_intToDecimal m h1 h2, if_true]
      split_ifs <;> simp <;> omega
    | str t =>
      simp only [cmpTok, meta_val_cmp, specLe]
      cases hint : is_int_str t with
      | false => simp [hint]
      | true =>
        simp only [hint, if_true, Bool.true_or, Bool.false_or]
        split_ifs <;> simp <;> omega
    | arr items => simp [cmpTok, meta_val_cmp, specLe, is_int_str]
  | str s2 => cases ov <;> simp [meta_val_cmp, specLe]
  | arr items => cases ov <;> simp [meta_val_cmp, specLe]

theorem meta_val_eq_spec (dval ov : MetaVal) (hov : inS64 ov) :
    meta_val_eq dval (cmpTok ov) = specEq dval ov := by
  cases dval with
  | int n =>
    cases ov with
    | int m =>
      obtain ⟨h1, h2⟩ := hov m rfl
      simp [cmpTok, meta_val_eq, specEq, is_int_str_intToDecimal,
        parse_int_intToDecimal m h1 h2]
    | str t => simp [cmpTok, meta_val_eq, specEq]
    | arr items => simp [cmpTok, meta_val_eq, specEq, is_int_str]
  | str s2 => cases ov <;> simp [meta_val_eq, specEq]
  | arr items => cases ov <;> simp [meta_val_eq, specEq]

theorem meta_val_startsWith_spec (dval ov : MetaVal) :
    meta_val_startsWith dval (cmpTok ov) = specStartsWith dval ov := by
  cases dval <;> simp [meta_val_startsWith, specStartsWith]

theorem meta_val_contains_spec (dval ov : MetaVal) :
    meta_val_contains dval (cmpTok ov) = specHasMember dval ov := by
  cases dval <;> simp [meta_val_contains, specHasMember]

theorem submap_branch_eq (dval : MetaVal) (op : CStr) (ov : MetaVal) (hov : inS64 ov) :
    (if opIs op gteLit then decide (meta_val_cmp dval (cmpTok ov) ≥ 0)
     else if opIs op lteLit then decide (meta_val_cmp dval (cmpTok ov) ≤ 0)
     else if opIs op neLit then !(meta_val_eq dval (cmpTok ov))
     else if opIs op prefLit then meta_val_startsWith dval (cmpTok ov)
     else if opIs op contLit then meta_val_contains dval (cmpTok ov)
     else false)
    = (if opIs op gteLit then specGe dval ov
       else if opIs op lteLit then specLe dval ov
       else if opIs op neLit then !(specEq dval ov)
       else if opIs op prefLit then specStartsWith dval ov
       else if opIs op contLit then specHasMember dval ov
       else false) := by
  split_ifs
  · exact meta_val_cmp_ge_spec dval ov hov
  · exact meta_val_cmp_le_spec dval ov hov
  · rw [meta_val_eq_spec dval ov hov]
  · exact meta_val_startsWith_spec dval ov
  · exact meta_val_contains_spec dval ov
  · rfl

/-- C3 — The claim fails as frozen: operators are recognised by prefix, so an
operator such as `$nex` (not in the operator set) behaves as `$ne` instead of
failing.  This theorem is the amended claim: for every data record and every
filter condition whose value is a raw operator sub-map, a missing key fails
the condition, and otherwise `eval_condition` agrees with the claim-side
operator table `eval_condition_table` (numeric `$gte`/`$lte` when both sides
are integers, lexicographic byte order on strings, `$ne` as negated equality,
`$prefix` on strings, `$contains` on arrays, operators matched by their
leading bytes, anything else failing). -/
theorem eval_condition_operator_table (data : MetaRecord) (fkey s : CStr)
    (h : headIs s '{' = true) :
    eval_condition data fkey (.str s) = eval_condition_table data fkey s ∧
    (find_field data fkey = none → eval_condition data fkey (.str s) = false) := by
  constructor
  · simp only [eval_condition, eval_condition_table]
    cases hf : find_field data fkey with
    | none => rfl
    | some dval =>
      simp only [h, if_true]
      exact submap_branch_eq dval _ _ (fun i hi => parse_value_int_bounds _ i hi)
  · intro hf
    simp only [eval_condition, hf]

/-- One filter field as `eval_filter_record` treats it: `$and`/`$or` with a raw
string value delegate to the logical-array evaluator, `$and`/`$or` with any
other value are skipped (pass), every other key is a condition. -/
def eval_one_field (fuel : Nat) (data : MetaRecord) (fl : MetaField) : Bool :=
  if fl.1 = andLit then
    match fl.2 with
    | .str s => eval_logical fuel data s false
    | _ => true
  else if fl.1 = orLit then
    match fl.2 with
    | .str s => eval_logical fuel data s true
    | _ => true
  else eval_condition data fl.1 fl.2

/-- The early-exit loop of `eval_filter_record` is the conjunction of its
per-field conditions, in order (implicit AND). -/
theorem eval_filter_fields_eq_all (fuel : Nat) (data : MetaRecord) (filt : MetaRecord) :
    eval_filter_fields fuel data filt = filt.all (eval_one_field fuel data) := by
  induction filt with
  | nil => simp [eval_filter_fields]
  | cons hd tl ih =>
    obtain ⟨key, fval⟩ := hd
    cases fval <;>
      · simp only [eval_filter_fields, List.all_cons, eval_one_field]
        split_ifs <;> simp [ih]

/-- C2 — The claim fails as frozen: it requires `mask[i] = 1` exactly when
record `i` passes the filter, and a filter with no conditions passes every
record; but `MetaStore_Filter` writes `0` for a record whose metadata is
absent even under the empty filter.  Here: a one-record store whose record has
no metadata, filtered by the empty expression (which parses to no conditions
and passes any record the evaluator sees), still yields mask `[0]`. -/
theorem MetaStore_Filter_empty_filter_absent_cex :
    MetaStore_Parse [] = [] ∧
    eval_filter_record 1 [] (MetaStore_Parse []) = true ∧
    MetaStore_Filter { raw := [none], capacity := 1 } [] 1 = [0] := by
  refine ⟨rfl, ?_, ?_⟩
  · rw [eval_filter_record, eval_filter_fields_eq_all]
    rfl
  · rfl

/-- C2, amended: `MetaStore_Filter` writes, for every slot `i < mask_len`:
`0` when record `i` is at or beyond the store count or has no metadata, and
otherwise the result of evaluating the parsed filter against the parsed
record, where the evaluation is the conjunction (implicit AND, in order) of
the per-field conditions, and the empty filter expression parses to no
conditions and therefore passes every record that has metadata. -/
theorem MetaStore_Filter_mask_spec :
    (∀ (ms : MetaStore) (f : CStr) (mask_len i : Nat), i < mask_len →
      (MetaStore_Filter ms f mask_len)[i]? =
        some (match ms.raw.getD i none with
              | none => 0
              | some r =>
                if eval_filter_record (f.length + 1) (MetaStore_Parse r) (MetaStore_Parse f)
                then 1 else 0)) ∧
    (∀ ms f mask_len, (MetaStore_Filter ms f mask_len).length = mask_len) ∧
    (∀ fuel data filt, eval_filter_fields fuel data filt = filt.all (eval_one_field fuel data)) ∧
    (∀ fuel data, eval_filter_record fuel data (MetaStore_Parse []) = true) := by
  refine ⟨?_, ?_, eval_filter_fields_eq_all, ?_⟩
  · intro ms f mask_len i hi
    simp only [MetaStore_Filter]
    rw [List.getElem?_map, List.getElem?_range hi]
    simp only [Option.map_some']
    by_cases hn : i < min mask_len ms.raw.length
    · simp only [hn, if_true]
    · have hlen : ms.raw.length ≤ i := by omega
      have hnone : ms.raw.getD i none = none := by
        rw [List.getD_eq_getElem?_getD, List.getElem?_eq_none hlen]
        rfl
      simp only [hn, if_false, hnone]
  · intro ms f mask_len
    simp [MetaStore_Filter]
  · intro fuel data
    rw [eval_filter_record, eval_filter_fields_eq_all]
    rfl

/-- Witness for `MetaStore_Filter_mask_spec` at a concrete store and filter:
record `\x7btopic: work\x7d`, filter `topic: work`, one slot. -/
theorem MetaStore_Filter_mask_spec_witness :
    (0 : Nat) < 1 ∧
    (MetaStore_Filter
        { raw := [some ['t', 'o', 'p', 'i', 'c', ':', ' ', 'w', 'o', 'r', 'k']], capacity := 1 }
        ['t', 'o', 'p', 'i', 'c', ':', ' ', 'w', 'o', 'r', 'k'] 1)[0]? =
      some (match ({ raw := [some ['t', 'o', 'p', 'i', 'c', ':', ' ', 'w', 'o', 'r', 'k']],
                     capacity := 1 } : MetaStore).raw.getD 0 none with
            | none => 0
            | some r =>
              if eval_filter_record (['t', 'o', 'p', 'i', 'c', ':', ' ', 'w', 'o', 'r', 'k'].length + 1)
                  (MetaStore_Parse r)
                  (MetaStore_Parse ['t', 'o', 'p', 'i', 'c', ':', ' ', 'w', 'o', 'r', 'k'])
              then 1 else 0) :=
  ⟨Nat.zero_lt_one,
   MetaStore_Filter_mask_spec.1 _ _ 1 0 Nat.zero_lt_one⟩

/-- C3 — counterexample to the claim as frozen.  The operator `$nex` is not in
the operator set `$gte/$lte/$ne/$prefix/$contains`, so by the claim the
condition must fail and the mask must be `[0]`; but `eval_condition` matches
operators by prefix (`strncmp(op, "$ne", 3)`), treats `$nex` as `$ne`, the
condition `a: \x7b$nex: 2\x7d` passes against the record `a: 1`, and the mask
is `[1]`. -/
theorem eval_condition_unknown_op_prefix_cex :
    MetaStore_Filter { raw := [some ['a', ':', ' ', '1']], capacity := 1 }
      ['a', ':', ' ', '{', '$', 'n', 'e', 'x', ':', ' ', '2', '}'] 1 = [1] ∧
    MetaStore_Parse ['a', ':', ' ', '{', '$', 'n', 'e', 'x', ':', ' ', '2', '}'] =
      [(['a'], MetaVal.str ['{', '$', 'n', 'e', 'x', ':', ' ', '2', '}'])] ∧
    (read_token (skip_ws (List.tail ['{', '$', 'n', 'e', 'x', ':', ' ', '2', '}']))).1 =
      ['$', 'n', 'e', 'x'] ∧
    ¬(['$', 'n', 'e', 'x'] = gteLit ∨ ['$', 'n', 'e', 'x'] = lteLit ∨
      ['$', 'n', 'e', 'x'] = neLit ∨ ['$', 'n', 'e', 'x'] = prefLit ∨
      ['$', 'n', 'e', 'x'] = contLit) := by
  refine ⟨?_, by decide, by decide, by decide⟩
  have heval :
      eval_filter_record 13
        (MetaStore_Parse ['a', ':', ' ', '1'])
        (MetaStore_Parse ['a', ':', ' ', '{', '$', 'n', 'e', 'x', ':', ' ', '2', '}']) = true := by
    rw [eval_filter_record, eval_filter_fields_eq_all]
    decide
  simp +decide [MetaStore_Filter, List.range_succ, List.range_zero, heval]

/-- Witness for `eval_condition_operator_table`: the condition
`a: \x7b$gte: 1\x7d` against the record with field `a = 1`. -/
theorem eval_condition_operator_table_witness :
    headIs ['{', '$', 'g', 't', 'e', ':', ' ', '1', '}'] '{' = true ∧
    (eval_condition [(['a'], MetaVal.int 1)] ['a']
        (.str ['{', '$', 'g', 't', 'e', ':', ' ', '1', '}']) =
      eval_condition_table [(['a'], MetaVal.int 1)] ['a']
        ['{', '$', 'g', 't', 'e', ':', ' ', '1', '}'] ∧
      (find_field [(['a'], MetaVal.int 1)] ['a'] = none →
        eval_condition [(['a'], MetaVal.int 1)] ['a']
          (.str ['{', '$', 'g', 't', 'e', ':', ' ', '1', '}']) = false)) :=
  ⟨by decide, eval_condition_operator_table _ _ _ (by decide)⟩

/-- C10: a record added with `NULL` or an empty string is stored as `NULL`;
`MetaStore_Filter` assigns such records mask `0` under every filter
expression (the empty filter included, since the hypothesis covers every
`filter_expr`), and every mask slot at or beyond the store count is `0`. -/
theorem MetaStore_absent_metadata_mask_zero :
    (∀ ms : MetaStore, ms.raw.length < ms.capacity →
      (MetaStore_Add ms none).1.raw = ms.raw ++ [none] ∧
      (MetaStore_Add ms (some [])).1.raw = ms.raw ++ [none]) ∧
    (∀ (ms : MetaStore) (f : CStr) (mask_len i : Nat), i < mask_len →
      ms.raw.getD i none = none →
      (MetaStore_Filter ms f mask_len)[i]? = some 0) ∧
    (∀ (ms : MetaStore) (f : CStr) (mask_len i : Nat), i < mask_len →
      ms.raw.length ≤ i →
      (MetaStore_Filter ms f mask_len)[i]? = some 0) := by
  have hmask : ∀ (ms : MetaStore) (f : CStr) (mask_len i : Nat), i < mask_len →
      ms.raw.getD i none = none →
      (MetaStore_Filter ms f mask_len)[i]? = some 0 := by
    intro ms f mask_len i hi hnone
    simp only [MetaStore_Filter]
    rw [List.getElem?_map, List.getElem?_range hi]
    simp only [Option.map_some', hnone]
    by_cases hn : i < min mask_len ms.raw.length
    · simp only [hn, if_true]
    · simp only [hn, if_false]
  refine ⟨?_, hmask, ?_⟩
  · intro ms hcap
    constructor <;> simp [MetaStore_Add, Nat.not_le.mpr hcap]
  · intro ms f mask_len i hi hlen
    apply hmask ms f mask_len i hi
    rw [List.getD_eq_getElem?_getD, List.getElem?_eq_none hlen]
    rfl

/-- Witness for `MetaStore_absent_metadata_mask_zero` at concrete stores. -/
theorem MetaStore_absent_metadata_mask_zero_witness :
    ((MetaStore_Add { raw := [], capacity := 1 } none).1.raw = [] ++ [none] ∧
      (MetaStore_Add { raw := [], capacity := 1 } (some [])).1.raw = [] ++ [none]) ∧
    (MetaStore_Filter { raw := [none], capacity := 1 } ['x'] 1)[0]? = some 0 ∧
    (MetaStore_Filter { raw := [], capacity := 1 } [] 1)[0]? = some 0 :=
  ⟨MetaStore_absent_metadata_mask_zero.1 { raw := [], capacity := 1 } (by decide),
   MetaStore_absent_metadata_mask_zero.2.1 { raw := [none], capacity := 1 } ['x'] 1 0
     (by decide) (by decide),
   MetaStore_absent_metadata_mask_zero.2.2 { raw := [], capacity := 1 } [] 1 0
     (by decide) (by decide)⟩

/-! ## tokenizer.c — greedy BPE encoding (C4)

The vocabulary is the list of `(string, score)` pairs in file order; the token
id is the position.  `Tokenizer__FindToken` does an exact-match lookup
(`bsearch` with `strcmp` over the sorted copy in C); for a duplicate-free
vocabulary this is the unique position of the string, modelled as the first
position.  Scores (`f32`) are modelled as exact rationals. -/

structure Tokenizer where
  vocab : List (CStr × Rat)
deriving Repr, DecidableEq

/-- `Tokenizer__FindToken` from tokenizer.c: exact-match lookup, `none` when
the string is not a vocabulary entry. -/
def Tokenizer__FindToken (t : Tokenizer) (s : CStr) : Option Nat :=
  t.vocab.findIdx? fun v => v.1 = s

/-- The literal bytes of token `id` (`t->vocab[id]`). -/
def vocabStr (t : Tokenizer) (id : Nat) : CStr := (t.vocab.getD id ([], 0)).1

/-- The merge score of token `id` (`t->vocab_scores[id]`). -/
def vocabScore (t : Tokenizer) (id : Nat) : Rat := (t.vocab.getD id ([], 0)).2

/-- The candidate scan of the merge loop in `Tokenizer__Encode`: for every
adjacent position `i`, concatenate the two token strings (truncated to 511
bytes by `snprintf` into `char buf[512]`) and look the pair up; keep the
`(i, id)` of the hits, in position order. -/
def pair_candidates (t : Tokenizer) (tokens : List Nat) : List (Nat × Nat) :=
  (List.range (tokens.length - 1)).filterMap fun i =>
    (Tokenizer__FindToken t
        ((vocabStr t (tokens.getD i 0) ++ vocabStr t (tokens.getD (i + 1) 0)).take 511)).map
      fun id => (i, id)

/-- The best-candidate fold of `Tokenizer__Encode`: starting from
`best_score = -1e10`, `best_idx = -1`, take a candidate only when its score
strictly exceeds the best so far (so ties keep the leftmost hit, and hits
whose score is at most `-1e10` are never taken). -/
def pickBest (t : Tokenizer) : List (Nat × Nat) → Rat → Option (Nat × Nat) → Option (Nat × Nat)
  | [], _, best => best
  | c :: rest, bestScore, best =>
    if vocabScore t c.2 > bestScore then pickBest t rest (vocabScore t c.2) (some c)
    else pickBest t rest bestScore best

/-- One scan of the merge loop: the `(best_idx, best_id)` it selects, if any. -/
def bestMerge (t : Tokenizer) (tokens : List Nat) : Option (Nat × Nat) :=
  pickBest t (pair_candidates t tokens) (-(10 ^ 10 : Rat)) none

/-- The in-place merge: `tokens[i] = id` and shift the tail left by one. -/
def mergeAt (tokens : List Nat) (i id : Nat) : List Nat :=
  tokens.take i ++ id :: tokens.drop (i + 2)

/-- The `while (1)` merge loop of `Tokenizer__Encode`; each iteration removes
one token, so fuel equal to the initial length covers every execution. -/
def encode_merge_go (t : Tokenizer) : Nat → List Nat → List Nat
  | 0, tokens => tokens
  | fuel + 1, tokens =>
    match bestMerge t tokens with
    | none => tokens
    | some c => encode_merge_go t fuel (mergeAt tokens c.1 c.2)

/-- `Tokenizer__Encode` from tokenizer.c: single-byte lookup of every input
byte (bytes with no single-byte token are dropped), then the greedy merge
loop. -/
def Tokenizer__Encode (t : Tokenizer) (text : CStr) : List Nat :=
  let init := text.filterMap fun c => Tokenizer__FindToken t [c]
  encode_merge_go t init.length init

/-! Claim-side encoder, written from the wording of C4: merge while some
adjacent pair concatenation (untruncated) is in the vocabulary, always the
pair yielding the highest score, ties broken by leftmost index. -/

/-- Claim-side candidate scan: adjacent pairs whose concatenated literal
strings form a vocabulary entry. -/
def spec_candidates (t : Tokenizer) (tokens : List Nat) : List (Nat × Nat) :=
  (List.range (tokens.length - 1)).filterMap fun i =>
    (Tokenizer__FindToken t
        (vocabStr t (tokens.getD i 0) ++ vocabStr t (tokens.getD (i + 1) 0))).map
      fun id => (i, id)

/-- Claim-side choice: the candidate with the highest score, ties broken by
the leftmost (earliest) candidate. -/
def spec_best (t : Tokenizer) (cands : List (Nat × Nat)) : Option (Nat × Nat) :=
  cands.foldl
    (fun best c =>
      match best with
      | none => some c
      | some b => if vocabScore t c.2 > vocabScore t b.2 then some c else best)
    none

/-- Claim-side merge loop: stop only when no adjacent pair is in the
vocabulary. -/
def spec_merge_go (t : Tokenizer) : Nat → List Nat → List Nat
  | 0, tokens => tokens
  | fuel + 1, tokens =>
    match spec_best t (spec_candidates t tokens) with
    | none => tokens
    | some c => spec_merge_go t fuel (mergeAt tokens c.1 c.2)

/-- Claim-side encoder. -/
def encodeSpec (t : Tokenizer) (text : CStr) : List Nat :=
  let init := text.filterMap fun c => Tokenizer__FindToken t [c]
  spec_merge_go t init.length init

theorem Tokenizer__FindToken_lt (t : Tokenizer) (s : CStr) (id : Nat)
    (h : Tokenizer__FindToken t s = some id) : id < t.vocab.length :=
  (List.findIdx?_eq_some_iff_findIdx_eq.mp h).1

theorem vocabStr_length_le (t : Tokenizer) (hlen : ∀ v ∈ t.vocab, v.1.length ≤ 255)
    (id : Nat) : (vocabStr t id).length ≤ 255 := by
  unfold vocabStr
  rw [List.getD_eq_getElem?_getD]
  cases hv : t.vocab[id]? with
  | none => simp
  | some v =>
    simp only [Option.getD_some]
    exact hlen v (List.getElem?_mem hv)

theorem vocabScore_gt_sentinel (t : Tokenizer) (hscore : ∀ v ∈ t.vocab, v.2 > -(10 ^ 10 : Rat))
    (id : Nat) (hid : id < t.vocab.length) : vocabScore t id > -(10 ^ 10 : Rat) := by
  unfold vocabScore
  rw [List.getD_eq_getElem?_getD]
  cases hv : t.vocab[id]? with
  | none =>
    exact absurd hv (by simp [List.getElem?_eq_getElem hid])
  | some v =>
    simp only [Option.getD_some]
    exact hscore v (List.getElem?_mem hv)

theorem pair_candidates_eq_spec (t : Tokenizer) (hlen : ∀ v ∈ t.vocab, v.1.length ≤ 255)
    (tokens : List Nat) : pair_candidates t tokens = spec_candidates t tokens := by
  unfold pair_candidates spec_candidates
  have hfun : ∀ i : Nat,
      (Tokenizer__FindToken t
          ((vocabStr t (tokens.getD i 0) ++ vocabStr t (tokens.getD (i + 1) 0)).take 511)).map
        (fun id => (i, id)) =
      (Tokenizer__FindToken t
          (vocabStr t (tokens.getD i 0) ++ vocabStr t (tokens.getD (i + 1) 0))).map
        (fun id => (i, id)) := by
    intro i
    rw [List.take_of_length_le]
    have h1 := vocabStr_length_le t hlen (tokens.getD i 0)
    have h2 := vocabStr_length_le t hlen (tokens.getD (i + 1) 0)
    rw [List.length_append]
    omega
  rw [funext hfun]

theorem pair_candidates_score (t : Tokenizer) (hscore : ∀ v ∈ t.vocab, v.2 > -(10 ^ 10 : Rat))
    (tokens : List Nat) :
    ∀ c ∈ pair_candidates t tokens, vocabScore t c.2 > -(10 ^ 10 : Rat) := by
  intro c hc
  rw [pair_candidates, List.mem_filterMap] at hc
  obtain ⟨i, _, hmap⟩ := hc
  cases hfind : Tokenizer__FindToken t
      ((vocabStr t (tokens.getD i 0) ++ vocabStr t (tokens.getD (i + 1) 0)).take 511) with
  | none => rw [hfind] at hmap; exact absurd hmap (by simp)
  | some id =>
    rw [hfind] at hmap
    simp only [Option.map_some', Option.some.injEq] at hmap
    have hid : id < t.vocab.length := Tokenizer__FindToken_lt t _ id hfind
    rw [← hmap]
    exact vocabScore_gt_sentinel t hscore id hid

theorem pickBest_from_some (t : Tokenizer) :
    ∀ (cands : List (Nat × Nat)) (b : Nat × Nat),
      pickBest t cands (vocabScore t b.2) (some b) =
        cands.foldl
          (fun best c =>
            match best with
            | none => some c
            | some bb => if vocabScore t c.2 > vocabScore t bb.2 then some c else best)
          (some b) := by
  intro cands
  induction cands with
  | nil => intro b; rfl
  | cons c rest ih =>
    intro b
    simp only [pickBest, List.foldl_cons]
    by_cases hgt : vocabScore t c.2 > vocabScore t b.2
    · simp only [if_pos hgt]
      exact ih c
    · simp only [if_neg hgt]
      exact ih b

theorem bestMerge_eq_spec_best (t : Tokenizer)
    (tokens : List Nat) (hsc : ∀ c ∈ pair_candidates t tokens, vocabScore t c.2 > -(10 ^ 10 : Rat)) :
    bestMerge t tokens = spec_best t (pair_candidates t tokens) := by
  unfold bestMerge spec_best
  cases hc : pair_candidates t tokens with
  | nil => rfl
  | cons c rest =>
    have hcm : vocabScore t c.2 > -(10 ^ 10 : Rat) := by
      apply hsc
      rw [hc]
      exact List.mem_cons_self c rest
    simp only [pickBest, List.foldl_cons]
    rw [if_pos hcm]
    exact pickBest_from_some t rest c

/-- C4 — The claim fails as frozen: the merge loop takes a pair only when its
score strictly exceeds the `-1e10` sentinel, so a vocabulary pair whose score
is at most `-1e10` is never merged even though its concatenation is in the
vocabulary.  With vocabulary `a`, `b`, `ab` where `ab` has score `-1e10`,
encoding `"ab"` leaves `[0, 1]` although the pair `ab` is a vocabulary entry
(id 2), and the claim-side encoder merges it to `[2]`. -/
theorem Tokenizer__Encode_sentinel_cex :
    Tokenizer__Encode ⟨[(['a'], 0), (['b'], 0), (['a', 'b'], -(10 ^ 10 : Rat))]⟩ ['a', 'b'] =
      [0, 1] ∧
    Tokenizer__FindToken ⟨[(['a'], 0), (['b'], 0), (['a', 'b'], -(10 ^ 10 : Rat))]⟩ ['a', 'b'] =
      some 2 ∧
    encodeSpec ⟨[(['a'], 0), (['b'], 0), (['a', 'b'], -(10 ^ 10 : Rat))]⟩ ['a', 'b'] = [2] := by
  refine ⟨by decide, by decide, by decide⟩

/-- C4, amended: provided every vocabulary score exceeds the `-1e10` sentinel
and every vocabulary string fits the 511-byte pair buffer, `Tokenizer__Encode`
is exactly the claim's algorithm `encodeSpec`: single-byte exact lookup of
every input byte (bytes without a single-byte token dropped), then repeatedly
merge the adjacent pair whose concatenation is a vocabulary entry with the
highest score, ties broken by leftmost index, until no adjacent pair
concatenation is in the vocabulary; order is preserved throughout. -/
theorem Tokenizer__Encode_greedy_bpe (t : Tokenizer) (text : CStr)
    (hlen : ∀ v ∈ t.vocab, v.1.length ≤ 255)
    (hscore : ∀ v ∈ t.vocab, v.2 > -(10 ^ 10 : Rat)) :
    Tokenizer__Encode t text = encodeSpec t text := by
  have key : ∀ (fuel : Nat) (tokens : List Nat),
      encode_merge_go t fuel tokens = spec_merge_go t fuel tokens := by
    intro fuel
    induction fuel with
    | zero => intro tokens; rfl
    | succ fuel ih =>
      intro tokens
      rw [encode_merge_go, spec_merge_go]
      have hb : bestMerge t tokens = spec_best t (spec_candidates t tokens) := by
        rw [bestMerge_eq_spec_best t tokens (pair_candidates_score t hscore tokens),
          pair_candidates_eq_spec t hlen tokens]
      rw [hb]
      cases spec_best t (spec_candidates t tokens) with
      | none => rfl
      | some c => exact ih (mergeAt tokens c.1 c.2)
  unfold Tokenizer__Encode encodeSpec
  exact key _ _

/-- Witness for `Tokenizer__Encode_greedy_bpe` on a concrete vocabulary and
input. -/
theorem Tokenizer__Encode_greedy_bpe_witness :
    (∀ v ∈ ([(['a'], 1), (['b'], 2), (['a', 'b'], 3)] : List (CStr × Rat)), v.1.length ≤ 255) ∧
    (∀ v ∈ ([(['a'], 1), (['b'], 2), (['a', 'b'], 3)] : List (CStr × Rat)),
      v.2 > -(10 ^ 10 : Rat)) ∧
    Tokenizer__Encode ⟨[(['a'], 1), (['b'], 2), (['a', 'b'], 3)]⟩ ['a', 'b'] =
      encodeSpec ⟨[(['a'], 1), (['b'], 2), (['a', 'b'], 3)]⟩ ['a', 'b'] :=
  ⟨by decide, by decide,
   Tokenizer__Encode_greedy_bpe ⟨[(['a'], 1), (['b'], 2), (['a', 'b'], 3)]⟩ ['a', 'b']
     (by decide) (by decide)⟩

/-! ## vectordb.c — flat vector index (C1, C5, C6)

`VDB_Index` holds the populated region of the arrays: `ids`/`vectors` have
exactly `count` entries (`count` is derived as `ids.length`); `capacity` bounds
growth.  The element type of a vector entry is a parameter: claims about
copying and searching do not inspect it (`Rat` stands for exact `f32` values,
`Nat` for raw 32-bit words in the serialisation claim). -/

structure VDB_Index (α : Type) where
  dim : Nat
  metric : Nat
  capacity : Nat
  ids : List Nat
  vectors : List (List α)
deriving Repr, DecidableEq

/-- `idx->count`: the number of populated rows. -/
def VDB_Index.count {α : Type} (idx : VDB_Index α) : Nat := idx.ids.length

/-- `VDB_Index_Add` from vectordb.c: when `count >= capacity` report the index
full and change nothing; otherwise record `id` at row `count`, copy exactly
`dim` elements of the vector into that row, and increment `count`. -/
def VDB_Index_Add {α : Type} (idx : VDB_Index α) (id : Nat) (vec : List α) : VDB_Index α :=
  if idx.count ≥ idx.capacity then idx
  else { idx with ids := idx.ids ++ [id], vectors := idx.vectors ++ [vec.take idx.dim] }

/-- The survivor compaction of `VDB_Search` under a filter mask: the `(id,
vector)` pairs of the rows `i < count` with `filter_mask[i]` non-zero, in row
order. -/
def survivors {α : Type} (idx : VDB_Index α) (mask : List Nat) : List (Nat × List α) :=
  (List.range idx.count).filterMap fun i =>
    if mask.getD i 0 ≠ 0 then some (idx.ids.getD i 0, idx.vectors.getD i []) else none

/-- The search set without a mask: all `(id, vector)` rows in order. -/
def allRows {α : Type} (idx : VDB_Index α) : List (Nat × List α) :=
  (List.range idx.count).map fun i => (idx.ids.getD i 0, idx.vectors.getD i [])

/-- The `compare_results` ordering of vectordb.c as the `le` of a stable sort:
`a` may stay before `b` iff `compare_results(a, b) <= 0`, i.e. `b.score <=
a.score` (descending by score, ids ignored).  glibc `qsort` is a (stable)
merge sort, modelled by `List.mergeSort`. -/
def resultLe (a b : Nat × Rat) : Bool := decide (b.2 ≤ a.2)

/-- Sort descending by score, emit the top `min k n_search`, pad the remaining
slots with `(0, -1.0)` (the tail of `VDB_Search`). -/
def sortAndPad (k : Nat) (all_results : List (Nat × Rat)) : List (Nat × Rat) :=
  let sorted := all_results.mergeSort resultLe
  let n := min k all_results.length
  sorted.take n ++ List.replicate (k - n) ((0 : Nat), (-1 : Rat))

/-- `VDB_Search` from vectordb.c.  The similarity scores come from the GPU
Similarity pipeline, whose kernel is outside this repository; it is modelled
as an oracle `score` from a row vector to its score for the fixed query.
With a mask: compact the survivors, return `k` padding entries when none
survive, else score, sort and pad.  Without a mask: the same over all rows. -/
def VDB_Search {α : Type} (score : List α → Rat) (idx : VDB_Index α) (k : Nat)
    (filter_mask : Option (List Nat)) : List (Nat × Rat) :=
  match filter_mask with
  | some mask =>
    let surv := survivors idx mask
    if surv.length = 0 then List.replicate k ((0 : Nat), (-1 : Rat))
    else sortAndPad k (surv.map fun s => (s.1, score s.2))
  | none => sortAndPad k ((allRows idx).map fun s => (s.1, score s.2))

/-! Serialisation (C5).  Bytes are `Nat` values below 256; multi-byte fields
are little-endian.  An `f32` vector entry is serialised as its 32-bit pattern
(`fwrite` copies the 4 bytes verbatim), modelled by `Nat` words below `2^32`. -/

/-- Little-endian byte encoding of `n` in `w` bytes. -/
def leBytes : Nat → Nat → List Nat
  | 0, _ => []
  | w + 1, n => (n % 256) :: leBytes w (n / 256)

/-- Little-endian byte decoding; missing bytes read as zero (a short `fread`
in `VDB_Index_Load` leaves the zero-initialised arena pages in place). -/
def deBytes : List Nat → Nat
  | [] => 0
  | b :: bs => b + 256 * deBytes bs

/-- Sequential `fread` of `cnt` little-endian words of `w` bytes each. -/
def readWords : Nat → Nat → List Nat → List Nat
  | _, 0, _ => []
  | w, cnt + 1, bs => deBytes (bs.take w) :: readWords w cnt (bs.drop w)

/-- Sequential read of `cnt` rows of `dim` words of `w` bytes each (the
`count * dim` float block, row-major). -/
def readRows : Nat → Nat → Nat → List Nat → List (List Nat)
  | _, _, 0, _ => []
  | w, dim, cnt + 1, bs => readWords w dim bs :: readRows w dim cnt (bs.drop (w * dim))

/-- `VDB_Index_Save` from vectordb.c: `int32 dim`, `int32 count`,
`int32 metric`, then `count` `uint64` ids, then `count * dim` `float32`
vector words, all little-endian. -/
def VDB_Index_Save (idx : VDB_Index Nat) : List Nat :=
  leBytes 4 idx.dim ++ leBytes 4 idx.count ++ leBytes 4 idx.metric ++
    idx.ids.flatMap (leBytes 8) ++ idx.vectors.flatten.flatMap (leBytes 4)

/-- `VDB_Index_Load` from vectordb.c: fail (`NULL`) when any of the three
header reads comes up short; then allocate with `capacity = count + 1000` and
read `count` ids and `count * dim` vector words (unchecked `fread`s: missing
bytes read as zero). -/
def VDB_Index_Load (bytes : List Nat) : Option (VDB_Index Nat) :=
  if bytes.length < 4 then none
  else
    let dim := deBytes (bytes.take 4)
    let r1 := bytes.drop 4
    if r1.length < 4 then none
    else
      let count := deBytes (r1.take 4)
      let r2 := r1.drop 4
      if r2.length < 4 then none
      else
        let metric := deBytes (r2.take 4)
        let r3 := r2.drop 4
        let ids := readWords 8 count r3
        let body := r3.drop (8 * count)
        let vectors := readRows 4 dim count body
        some { dim := dim, metric := metric, capacity := count + 1000,
               ids := ids, vectors := vectors }

/-- C6: at capacity, `VDB_Index_Add` changes nothing (count, ids, vectors are
exactly as before; the failure is reported on stderr, outside the model);
below capacity it records `id` at row `count`, copies exactly `dim` elements
into that row, and increments `count`. -/
theorem VDB_Index_Add_spec {α : Type} (idx : VDB_Index α) (id : Nat) (vec : List α) :
    (idx.count ≥ idx.capacity → VDB_Index_Add idx id vec = idx) ∧
    (idx.count < idx.capacity →
      (VDB_Index_Add idx id vec).ids = idx.ids ++ [id] ∧
      (VDB_Index_Add idx id vec).ids.getD idx.count 0 = id ∧
      (VDB_Index_Add idx id vec).vectors = idx.vectors ++ [vec.take idx.dim] ∧
      (VDB_Index_Add idx id vec).count = idx.count + 1 ∧
      (vec.length = idx.dim → (VDB_Index_Add idx id vec).vectors = idx.vectors ++ [vec])) := by
  constructor
  · intro h
    simp [VDB_Index_Add, h]
  · intro h
    have hne : ¬idx.count ≥ idx.capacity := by omega
    refine ⟨by simp [VDB_Index_Add, hne], ?_, by simp [VDB_Index_Add, hne], ?_, ?_⟩
    · simp only [VDB_Index_Add, hne, if_false]
      rw [List.getD_eq_getElem?_getD, VDB_Index.count,
        List.getElem?_append_right (le_refl idx.ids.length)]
      simp
    · have hne2 : ¬idx.capacity ≤ idx.ids.length := by
        simp only [VDB_Index.count] at h
        omega
      simp [VDB_Index_Add, VDB_Index.count, hne2]
    · intro hv
      simp [VDB_Index_Add, hne, ← hv, List.take_length]

/-- Witness for `VDB_Index_Add_spec`: a full index (capacity 0) is unchanged;
an empty index of capacity 2 and dimension 1 takes the row. -/
theorem VDB_Index_Add_spec_witness :
    VDB_Index_Add { dim := 1, metric := 1, capacity := 0, ids := [],
                    vectors := ([] : List (List Rat)) } 7 [5] =
      { dim := 1, metric := 1, capacity := 0, ids := [], vectors := [] } ∧
    ((VDB_Index_Add { dim := 1, metric := 1, capacity := 2, ids := [],
                      vectors := ([] : List (List Rat)) } 9 [5]).ids = [] ++ [9] ∧
      (VDB_Index_Add { dim := 1, metric := 1, capacity := 2, ids := [],
                       vectors := ([] : List (List Rat)) } 9 [5]).ids.getD 0 0 = 9 ∧
      (VDB_Index_Add { dim := 1, metric := 1, capacity := 2, ids := [],
                       vectors := ([] : List (List Rat)) } 9 [5]).vectors =
        [] ++ [([5] : List Rat).take 1] ∧
      (VDB_Index_Add { dim := 1, metric := 1, capacity := 2, ids := [],
                       vectors := ([] : List (List Rat)) } 9 [5]).count = 0 + 1 ∧
      (([5] : List Rat).length = 1 →
        (VDB_Index_Add { dim := 1, metric := 1, capacity := 2, ids := [],
                         vectors := ([] : List (List Rat)) } 9 [5]).vectors = [] ++ [[5]])) :=
  ⟨(VDB_Index_Add_spec _ 7 [5]).1 (by decide),
   (VDB_Index_Add_spec _ 9 [5]).2 (by decide)⟩

theorem leBytes_length (w : Nat) : ∀ n : Nat, (leBytes w n).length = w := by
  induction w with
  | zero => intro n; rfl
  | succ w ih => intro n; simp [leBytes, ih]

theorem deBytes_leBytes (w : Nat) : ∀ n : Nat, n < 256 ^ w → deBytes (leBytes w n) = n := by
  induction w with
  | zero =>
    intro n h
    simp only [pow_zero, Nat.lt_one_iff] at h
    simp [h, leBytes, deBytes]
  | succ w ih =>
    intro n h
    rw [pow_succ] at h
    simp only [leBytes, deBytes]
    rw [ih (n / 256) (by omega)]
    omega

theorem flatMap_leBytes_length (w : Nat) (l : List Nat) :
    (l.flatMap (leBytes w)).length = w * l.length := by
  induction l with
  | nil => simp
  | cons x xs ih =>
    simp only [List.flatMap_cons, List.length_append, leBytes_length, ih, List.length_cons]
    ring

theorem readWords_flatMap (w : Nat) :
    ∀ (l rest : List Nat), (∀ x ∈ l, x < 256 ^ w) →
      readWords w l.length (l.flatMap (leBytes w) ++ rest) = l := by
  intro l
  induction l with
  | nil => intro rest _; rfl
  | cons x xs ih =>
    intro rest h
    have hlen : (leBytes w x).length = w := leBytes_length w x
    simp only [List.flatMap_cons, List.length_cons, List.append_assoc]
    rw [readWords, List.take_left' hlen, List.drop_left' hlen,
      deBytes_leBytes w x (h x (List.mem_cons_self x xs)),
      ih rest (fun y hy => h y (List.mem_cons_of_mem _ hy))]

theorem readRows_flatten (dim : Nat) :
    ∀ (rows : List (List Nat)) (rest : List Nat),
      (∀ r ∈ rows, r.length = dim) → (∀ r ∈ rows, ∀ x ∈ r, x < 2 ^ 32) →
      readRows 4 dim rows.length (rows.flatten.flatMap (leBytes 4) ++ rest) = rows := by
  intro rows
  induction rows with
  | nil => intro rest _ _; rfl
  | cons r rs ih =>
    intro rest h1 h2
    have hr : r.length = dim := h1 r (List.mem_cons_self r rs)
    have hb : ∀ x ∈ r, x < 256 ^ 4 := by
      intro x hx
      have := h2 r (List.mem_cons_self r rs) x hx
      norm_num at this ⊢
      omega
    have hlen : (r.flatMap (leBytes 4)).length = 4 * dim := by
      rw [flatMap_leBytes_length, hr]
    simp only [List.flatten_cons, List.flatMap_append, List.length_cons, List.append_assoc]
    rw [readRows, ← hr, readWords_flatMap 4 r _ hb, hr, List.drop_left' hlen,
      ih rest (fun s hs => h1 s (List.mem_cons_of_mem _ hs))
        (fun s hs => h2 s (List.mem_cons_of_mem _ hs))]

/-- C5: loading the file produced by `VDB_Index_Save` yields an index equal to
the saved one on `dim`, `metric`, `count`, `ids` and `vectors` (capacity is
re-allocated as `count + 1000`).  The hypotheses are the well-formedness of
the saved state: header fields in `int32` range, ids in `uint64` range,
`count` rows of `dim` words each, words in `f32`-bit range. -/
theorem VDB_Index_save_load_roundtrip (idx : VDB_Index Nat)
    (hdim : idx.dim < 2 ^ 31) (hcount : idx.count < 2 ^ 31) (hmetric : idx.metric < 2 ^ 31)
    (hids : ∀ id ∈ idx.ids, id < 2 ^ 64)
    (hrows : idx.vectors.length = idx.count)
    (hrowlen : ∀ r ∈ idx.vectors, r.length = idx.dim)
    (hword : ∀ r ∈ idx.vectors, ∀ x ∈ r, x < 2 ^ 32) :
    ∃ idx2 : VDB_Index Nat,
      VDB_Index_Load (VDB_Index_Save idx) = some idx2 ∧
        idx2.dim = idx.dim ∧ idx2.metric = idx.metric ∧ idx2.count = idx.count ∧
        idx2.ids = idx.ids ∧ idx2.vectors = idx.vectors := by
  have h4d : (leBytes 4 idx.dim).length = 4 := leBytes_length 4 idx.dim
  have h4c : (leBytes 4 idx.count).length = 4 := leBytes_length 4 idx.count
  have h4m : (leBytes 4 idx.metric).length = 4 := leBytes_length 4 idx.metric
  have hidlen : (idx.ids.flatMap (leBytes 8)).length = 8 * idx.count := by
    rw [flatMap_leBytes_length]; rfl
  have hsave : VDB_Index_Save idx =
      leBytes 4 idx.dim ++ (leBytes 4 idx.count ++ (leBytes 4 idx.metric ++
        (idx.ids.flatMap (leBytes 8) ++ idx.vectors.flatten.flatMap (leBytes 4)))) := by
    simp [VDB_Index_Save, List.append_assoc]
  have hin31 : ∀ m : Nat, m < 2 ^ 31 → m < 256 ^ 4 := by intro m hm; norm_num at hm ⊢; omega
  have hdd : deBytes (leBytes 4 idx.dim) = idx.dim := deBytes_leBytes 4 _ (hin31 _ hdim)
  have hdc : deBytes (leBytes 4 idx.count) = idx.count := deBytes_leBytes 4 _ (hin31 _ hcount)
  have hdm : deBytes (leBytes 4 idx.metric) = idx.metric := deBytes_leBytes 4 _ (hin31 _ hmetric)
  have hidsr : readWords 8 idx.count
      (idx.ids.flatMap (leBytes 8) ++ idx.vectors.flatten.flatMap (leBytes 4)) = idx.ids := by
    have : ∀ x ∈ idx.ids, x < 256 ^ 8 := by
      intro x hx
      have := hids x hx
      norm_num at this ⊢
      omega
    calc readWords 8 idx.count (idx.ids.flatMap (leBytes 8) ++
            idx.vectors.flatten.flatMap (leBytes 4))
        = readWords 8 idx.ids.length (idx.ids.flatMap (leBytes 8) ++
            idx.vectors.flatten.flatMap (leBytes 4)) := rfl
      _ = idx.ids := readWords_flatMap 8 idx.ids _ this
  have hvecr : readRows 4 idx.dim idx.count (idx.vectors.flatten.flatMap (leBytes 4)) = idx.vectors := by
    calc readRows 4 idx.dim idx.count (idx.vectors.flatten.flatMap (leBytes 4))
        = readRows 4 idx.dim idx.vectors.length
            (idx.vectors.flatten.flatMap (leBytes 4) ++ []) := by rw [hrows, List.append_nil]
      _ = idx.vectors := readRows_flatten idx.dim idx.vectors [] hrowlen hword
  refine ⟨{ dim := idx.dim, metric := idx.metric, capacity := idx.count + 1000,
            ids := idx.ids, vectors := idx.vectors }, ?_, rfl, rfl, rfl, rfl, rfl⟩
  rw [hsave]
  simp only [VDB_Index_Load, List.length_append, h4d, h4c, h4m,
    List.take_left' h4d, List.drop_left' h4d, List.take_left' h4c, List.drop_left' h4c,
    List.take_left' h4m, List.drop_left' h4m, hdd, hdc, hdm]
  rw [if_neg (by omega), if_neg (by omega), if_neg (by omega)]
  rw [hidsr, List.drop_left' hidlen, hvecr]

/-- Witness for `VDB_Index_save_load_roundtrip` on a one-row index. -/
theorem VDB_Index_save_load_roundtrip_witness :
    ({ dim := 1, metric := 1, capacity := 3, ids := [5],
       vectors := [[7]] } : VDB_Index Nat).dim < 2 ^ 31 ∧
    (∃ idx2 : VDB_Index Nat,
      VDB_Index_Load (VDB_Index_Save
        { dim := 1, metric := 1, capacity := 3, ids := [5], vectors := [[7]] }) = some idx2 ∧
        idx2.dim = 1 ∧ idx2.metric = 1 ∧ idx2.count = 1 ∧
        idx2.ids = [5] ∧ idx2.vectors = [[7]]) :=
  ⟨by decide,
   VDB_Index_save_load_roundtrip
     { dim := 1, metric := 1, capacity := 3, ids := [5], vectors := [[7]] }
     (by decide) (by decide) (by decide) (by decide) (by decide) (by decide) (by decide)⟩

theorem resultLe_trans : ∀ a b c : Nat × Rat, resultLe a b → resultLe b c → resultLe a c := by
  intro a b c hab hbc
  simp only [resultLe, decide_eq_true_eq] at hab hbc ⊢
  exact le_trans hbc hab

theorem resultLe_total : ∀ a b : Nat × Rat, resultLe a b || resultLe b a := by
  intro a b
  simp only [resultLe, Bool.or_eq_true, decide_eq_true_eq]
  exact le_total b.2 a.2

theorem sortAndPad_spec (k : Nat) (base : List (Nat × Rat)) :
    (sortAndPad k base).length = k ∧
    (∃ L, base.Perm L ∧ L.Pairwise (fun a b => b.2 ≤ a.2) ∧
      sortAndPad k base = L.take (min k base.length) ++
        List.replicate (k - min k base.length) ((0 : Nat), (-1 : Rat)) ∧
      (∀ r ∈ L.take (min k base.length), ∀ s ∈ L.drop (min k base.length), s.2 ≤ r.2)) ∧
    (∀ j, min k base.length ≤ j → j < k →
      (sortAndPad k base).getD j ((0 : Nat), (0 : Rat)) = ((0 : Nat), (-1 : Rat))) ∧
    ((sortAndPad k base).take (min k base.length)).Pairwise (fun a b => b.2 ≤ a.2) ∧
    (∀ r ∈ (sortAndPad k base).take (min k base.length), r ∈ base) := by
  set L := base.mergeSort resultLe with hL
  set n := min k base.length with hn
  have hperm : L.Perm base := List.mergeSort_perm base resultLe
  have hsortedB : L.Pairwise fun a b => resultLe a b := by
    rw [hL]
    exact List.sorted_mergeSort resultLe_trans resultLe_total base
  have hsorted : L.Pairwise fun a b => b.2 ≤ a.2 := by
    refine hsortedB.imp ?_
    intro a b hab
    simpa [resultLe] using hab
  have hlenL : L.length = base.length := hperm.length_eq
  have hnle : n ≤ L.length := by omega
  have htlen : (L.take n).length = n := by
    rw [List.length_take]
    omega
  have hout : sortAndPad k base = L.take n ++ List.replicate (k - n) ((0 : Nat), (-1 : Rat)) := rfl
  have hcross : ∀ r ∈ L.take n, ∀ s ∈ L.drop n, s.2 ≤ r.2 := by
    have hs2 := hsorted
    rw [← List.take_append_drop n L] at hs2
    exact (List.pairwise_append.mp hs2).2.2
  have htake_out : (sortAndPad k base).take n = L.take n := by
    rw [hout, List.take_left' htlen]
  refine ⟨?_, ⟨L, hperm.symm, hsorted, hout, hcross⟩, ?_, ?_, ?_⟩
  · rw [hout, List.length_append, htlen, List.length_replicate]
    omega
  · intro j hj hjk
    rw [hout, List.getD_append_right _ _ _ _ (by omega), htlen,
      List.getD_eq_getElem?_getD, List.getElem?_replicate, if_pos (by omega)]
    rfl
  · rw [htake_out]
    exact hsorted.sublist (List.take_sublist n L)
  · intro r hr
    rw [htake_out] at hr
    exact hperm.mem_iff.mp (List.mem_of_mem_take hr)

theorem mem_survivors_ex {α : Type} (idx : VDB_Index α) (m : List Nat) (s : Nat × List α)
    (hs : s ∈ survivors idx m) :
    ∃ i, i < idx.count ∧ m.getD i 0 ≠ 0 ∧ s = (idx.ids.getD i 0, idx.vectors.getD i []) := by
  rw [survivors, List.mem_filterMap] at hs
  obtain ⟨i, hi, hopt⟩ := hs
  rw [List.mem_range] at hi
  by_cases hm : m.getD i 0 ≠ 0
  · rw [if_pos hm] at hopt
    exact ⟨i, hi, hm, (Option.some_inj.mp hopt).symm⟩
  · rw [if_neg hm] at hopt
    exact absurd hopt (by simp)

theorem mem_allRows_ex {α : Type} (idx : VDB_Index α) (s : Nat × List α)
    (hs : s ∈ allRows idx) :
    ∃ i, i < idx.count ∧ s = (idx.ids.getD i 0, idx.vectors.getD i []) := by
  rw [allRows, List.mem_map] at hs
  obtain ⟨i, hi, heq⟩ := hs
  rw [List.mem_range] at hi
  exact ⟨i, hi, heq.symm⟩

/-- The search set of `VDB_Search`: the survivors under the mask, or all rows
when no mask is given. -/
def searchRows {α : Type} (idx : VDB_Index α) (mask : Option (List Nat)) : List (Nat × List α) :=
  match mask with
  | some m => survivors idx m
  | none => allRows idx

theorem VDB_Search_eq_sortAndPad {α : Type} (score : List α → Rat) (idx : VDB_Index α)
    (k : Nat) (mask : Option (List Nat)) :
    VDB_Search score idx k mask =
      sortAndPad k ((searchRows idx mask).map fun s => (s.1, score s.2)) := by
  cases mask with
  | none => rfl
  | some m =>
    show (if (survivors idx m).length = 0 then _ else _) = _
    by_cases hz : (survivors idx m).length = 0
    · rw [if_pos hz]
      show _ = sortAndPad k ((survivors idx m).map fun s => (s.1, score s.2))
      rw [List.length_eq_zero.mp hz]
      simp [sortAndPad]
    · rw [if_neg hz]
      rfl

/-- C1, amended: `VDB_Search` returns exactly `k` results.  There is a
descending-by-score ordering `L` of the scored search set (the masked
survivors, or all rows without a mask) such that the output is the first
`min(k, n_search)` entries of `L` followed by `(0, -1.0)` padding; every
emitted score is at least every non-emitted score, the emitted prefix is
sorted descending, padding fills every slot from `min(k, n_search)` to `k`,
and every emitted entry is a row of the index — its id and score are that
row's — whose mask entry equals 1 when a 0/1-valued mask (as the metadata
filter produces) is given.  The tie-break rule of the frozen claim is
dropped without replacement: `compare_results` never inspects ids, so the
order among equal scores is whatever the sort leaves. -/
theorem VDB_Search_sorted_topk_padded {α : Type} (score : List α → Rat) (idx : VDB_Index α)
    (k : Nat) (mask : Option (List Nat)) :
    (VDB_Search score idx k mask).length = k ∧
    (∃ L, ((searchRows idx mask).map fun s => (s.1, score s.2)).Perm L ∧
      L.Pairwise (fun a b => b.2 ≤ a.2) ∧
      VDB_Search score idx k mask =
        L.take (min k ((searchRows idx mask).map fun s => (s.1, score s.2)).length) ++
          List.replicate (k - min k ((searchRows idx mask).map fun s => (s.1, score s.2)).length)
            ((0 : Nat), (-1 : Rat)) ∧
      (∀ r ∈ L.take (min k ((searchRows idx mask).map fun s => (s.1, score s.2)).length),
        ∀ s ∈ L.drop (min k ((searchRows idx mask).map fun s => (s.1, score s.2)).length),
          s.2 ≤ r.2)) ∧
    (∀ j, min k ((searchRows idx mask).map fun s => (s.1, score s.2)).length ≤ j → j < k →
      (VDB_Search score idx k mask).getD j ((0 : Nat), (0 : Rat)) = ((0 : Nat), (-1 : Rat))) ∧
    ((VDB_Search score idx k mask).take
        (min k ((searchRows idx mask).map fun s => (s.1, score s.2)).length)).Pairwise
      (fun a b => b.2 ≤ a.2) ∧
    (∀ r ∈ (VDB_Search score idx k mask).take
        (min k ((searchRows idx mask).map fun s => (s.1, score s.2)).length),
      ∃ i, i < idx.count ∧ (∀ m, mask = some m → (∀ v ∈ m, v ≤ 1) → m.getD i 0 = 1) ∧
        r.1 = idx.ids.getD i 0 ∧ r.2 = score (idx.vectors.getD i [])) := by
  have hEq := VDB_Search_eq_sortAndPad score idx k mask
  obtain ⟨hlen, ⟨L, hp, hs, hout, hcross⟩, hpad, hpw, hmem⟩ :=
    sortAndPad_spec k ((searchRows idx mask).map fun s => (s.1, score s.2))
  rw [← hEq] at hlen hout hpad hpw hmem
  refine ⟨hlen, ⟨L, hp, hs, hout, hcross⟩, hpad, hpw, ?_⟩
  intro r hr
  have hrb := hmem r hr
  rw [List.mem_map] at hrb
  obtain ⟨s, hsmem, hre⟩ := hrb
  cases mask with
  | some m =>
    obtain ⟨i, hi, hm, hse⟩ := mem_survivors_ex idx m s hsmem
    refine ⟨i, hi, ?_, ?_, ?_⟩
    · intro m2 hm2 hv
      cases hm2
      by_cases hil : i < m.length
      · have hmem2 : m.getD i 0 ∈ m := by
          rw [List.getD_eq_getElem m 0 hil]
          exact List.getElem_mem hil
        have := hv _ hmem2
        omega
      · rw [List.getD_eq_default m 0 (le_of_not_lt hil)] at hm
        exact absurd rfl hm
    · rw [← hre, hse]
    · rw [← hre, hse]
  | none =>
    obtain ⟨i, hi, hse⟩ := mem_allRows_ex idx s hsmem
    refine ⟨i, hi, ?_, ?_, ?_⟩
    · intro m2 hm2
      cases hm2
    · rw [← hre, hse]
    · rw [← hre, hse]

/-- C1 — counterexample to the tie-break of the frozen claim.  Two rows with
identical vectors (so the GPU similarity scores are necessarily equal,
whatever the kernel computes; the oracle is constant here), stored with ids
`[5, 3]`.  `compare_results` only compares scores, so the stable sort leaves
the equal-score results in row order and the output ids are `[5, 3]` — not
`[3, 5]` as "ties broken by lower id" requires. -/
theorem VDB_Search_tie_not_lower_id_cex :
    VDB_Search (fun _ => (0 : Rat))
        { dim := 1, metric := 1, capacity := 2, ids := [5, 3],
          vectors := [[(1 : Rat)], [1]] } 2 none = [(5, 0), (3, 0)] ∧
    (VDB_Search (fun _ => (0 : Rat))
        { dim := 1, metric := 1, capacity := 2, ids := [5, 3],
          vectors := [[(1 : Rat)], [1]] } 2 none).map Prod.fst ≠ [3, 5] := by
  have h : VDB_Search (fun _ => (0 : Rat))
      { dim := 1, metric := 1, capacity := 2, ids := [5, 3],
        vectors := [[(1 : Rat)], [1]] } 2 none = [(5, 0), (3, 0)] := by
    rw [VDB_Search_eq_sortAndPad]
    have hbase : ((searchRows
        { dim := 1, metric := 1, capacity := 2, ids := [5, 3],
          vectors := [[(1 : Rat)], [1]] } none).map
            fun s => (s.1, (fun _ => (0 : Rat)) s.2)) = [(5, 0), (3, 0)] := by decide
    rw [hbase]
    unfold sortAndPad
    rw [@List.mergeSort_of_sorted _ resultLe [(5, 0), (3, 0)] (by decide)]
    decide
  exact ⟨h, by rw [h]; decide⟩

/-- A concrete one-row index used by the witness below. -/
def idxOneRow : VDB_Index Rat :=
  { dim := 1, metric := 1, capacity := 2, ids := [0], vectors := [[1]] }

/-- Witness for `VDB_Search_sorted_topk_padded`: a one-row index searched with
`k = 2` pads slot 1 with `(0, -1.0)`. -/
theorem VDB_Search_sorted_topk_padded_witness :
    min 2 ((searchRows idxOneRow none).map
        fun s => (s.1, (fun _ => (0 : Rat)) s.2)).length ≤ 1 ∧
    (VDB_Search (fun _ => (0 : Rat)) idxOneRow 2 none).getD 1 ((0 : Nat), (0 : Rat)) =
      ((0 : Nat), (-1 : Rat)) :=
  ⟨by decide,
   (VDB_Search_sorted_topk_padded (fun _ => (0 : Rat)) idxOneRow 2 none).2.2.1 1
     (by decide) (by decide)⟩

/-! ## main.c — TextStore and the save command (C7) -/

/-- The text store of main.c: `lines[i]` is the note whose embedding lives at
index row `i`. -/
structure TextStore where
  lines : List CStr
  capacity : Nat
deriving Repr, DecidableEq

/-- `TextStore_Add` from main.c: fails (`(u64)-1`, here `none`) when full,
otherwise appends and returns the old count as the id. -/
def TextStore_Add (ts : TextStore) (text : CStr) : TextStore × Option Nat :=
  if ts.lines.length ≥ ts.capacity then (ts, none)
  else ({ ts with lines := ts.lines ++ [text] }, some ts.lines.length)

/-- `TextStore_Set` from main.c: fails when the id is not an existing row,
otherwise replaces the line in place. -/
def TextStore_Set (ts : TextStore) (id : Nat) (text : CStr) : TextStore × Bool :=
  if id ≥ ts.lines.length then (ts, false)
  else ({ ts with lines := ts.lines.set id text }, true)

/-- One process state of the save command: the vector index and the text
store (vector entries as exact rationals). -/
structure AppState where
  index : VDB_Index Rat
  ts : TextStore
deriving Repr, DecidableEq

/-- One `save` invocation: an append (`save <note>`) or an override
(`save <id> <note>`). -/
inductive SaveOp where
  | append (note : CStr) (vec : List Rat)
  | override (id : Nat) (note : CStr) (vec : List Rat)
deriving Repr, DecidableEq

/-- The save command of main.c.  Override: error (state unchanged) when the
id is not an existing row of both stores, else replace the text line and the
vector row, touching neither count.  Append: `TextStore_Add` first (error and
no index touch when the text store is full), then `VDB_Index_Add` with the
returned id. -/
def app_save_step (s : AppState) (op : SaveOp) : AppState :=
  match op with
  | .override id note vec =>
    if id ≥ s.ts.lines.length ∨ id ≥ s.index.count then s
    else
      { index := { s.index with vectors := s.index.vectors.set id (vec.take s.index.dim) },
        ts := (TextStore_Set s.ts id note).1 }
  | .append note vec =>
    match TextStore_Add s.ts note with
    | (_, none) => s
    | (ts2, some id) => { index := VDB_Index_Add s.index id vec, ts := ts2 }

/-- The matched empty stores main.c creates: one index and one text store of
the same capacity (10000 in the source). -/
def app_init (dim cap : Nat) : AppState :=
  { index := { dim := dim, metric := 1, capacity := cap, ids := [], vectors := [] },
    ts := { lines := [], capacity := cap } }

theorem app_save_step_invariant (s : AppState)
    (h1 : s.index.ids = List.range s.ts.lines.length)
    (h2 : s.index.capacity = s.ts.capacity) (op : SaveOp) :
    (app_save_step s op).index.ids = List.range (app_save_step s op).ts.lines.length ∧
    (app_save_step s op).index.capacity = (app_save_step s op).ts.capacity := by
  cases op with
  | override id note vec =>
    simp only [app_save_step]
    by_cases hid : id ≥ s.ts.lines.length ∨ id ≥ s.index.count
    · simp [hid, h1, h2]
    · push_neg at hid
      obtain ⟨hid1, hid2⟩ := hid
      rw [if_neg (by omega : ¬(id ≥ s.ts.lines.length ∨ id ≥ s.index.count))]
      simp only [TextStore_Set]
      rw [if_neg (by omega : ¬id ≥ s.ts.lines.length)]
      simp [h1, h2, List.length_set]
  | append note vec =>
    simp only [app_save_step, TextStore_Add]
    by_cases hfull : s.ts.lines.length ≥ s.ts.capacity
    · simp [hfull, h1, h2]
    · have hcount : s.index.count = s.ts.lines.length := by
        rw [VDB_Index.count, h1, List.length_range]
      have hnotfull : ¬s.index.count ≥ s.index.capacity := by omega
      simp only [if_neg hfull]
      simp only [VDB_Index_Add, hnotfull, if_false]
      constructor
      · simp [h1, List.length_append, List.range_succ]
      · simp [h2]

theorem app_save_fold_invariant (dim cap : Nat) (ops : List SaveOp) :
    (ops.foldl app_save_step (app_init dim cap)).index.ids =
      List.range (ops.foldl app_save_step (app_init dim cap)).ts.lines.length ∧
    (ops.foldl app_save_step (app_init dim cap)).index.capacity =
      (ops.foldl app_save_step (app_init dim cap)).ts.capacity := by
  suffices h : ∀ (s : AppState), s.index.ids = List.range s.ts.lines.length →
      s.index.capacity = s.ts.capacity →
      (ops.foldl app_save_step s).index.ids =
        List.range (ops.foldl app_save_step s).ts.lines.length ∧
      (ops.foldl app_save_step s).index.capacity = (ops.foldl app_save_step s).ts.capacity by
    exact h (app_init dim cap) (by simp [app_init]) rfl
  induction ops with
  | nil => intro s h1 h2; exact ⟨h1, h2⟩
  | cons op rest ih =>
    intro s h1 h2
    have hstep := app_save_step_invariant s h1 h2 op
    exact ih (app_save_step s op) hstep.1 hstep.2

/-- C7: starting from matched empty stores, after any sequence of append and
override save operations the vector index and the text store have equal
counts and `index.ids[i] = i` for every row `i < count`; a successful append
assigns the new note the id equal to its row position at append time, and an
override changes neither count. -/
theorem app_save_parallel_identity :
    (∀ (dim cap : Nat) (ops : List SaveOp),
      (ops.foldl app_save_step (app_init dim cap)).index.count =
        (ops.foldl app_save_step (app_init dim cap)).ts.lines.length) ∧
    (∀ (dim cap : Nat) (ops : List SaveOp) (i : Nat),
      i < (ops.foldl app_save_step (app_init dim cap)).index.count →
      (ops.foldl app_save_step (app_init dim cap)).index.ids.getD i 0 = i) ∧
    (∀ (ts : TextStore) (note : CStr), ts.lines.length < ts.capacity →
      (TextStore_Add ts note).2 = some ts.lines.length) ∧
    (∀ (s : AppState) (id : Nat) (note : CStr) (vec : List Rat),
      (app_save_step s (.override id note vec)).index.count = s.index.count ∧
      (app_save_step s (.override id note vec)).ts.lines.length = s.ts.lines.length) := by
  refine ⟨?_, ?_, ?_, ?_⟩
  · intro dim cap ops
    have h := (app_save_fold_invariant dim cap ops).1
    rw [VDB_Index.count, h, List.length_range]
  · intro dim cap ops i hi
    have h := (app_save_fold_invariant dim cap ops).1
    rw [VDB_Index.count, h, List.length_range] at hi
    rw [h, List.getD_eq_getElem?_getD, List.getElem?_range hi]
    rfl
  · intro ts note h
    simp [TextStore_Add, Nat.not_le.mpr h]
  · intro s id note vec
    simp only [app_save_step]
    by_cases hid : id ≥ s.ts.lines.length ∨ id ≥ s.index.count
    · simp [hid]
    · push_neg at hid
      obtain ⟨hid1, hid2⟩ := hid
      rw [if_neg (by omega : ¬(id ≥ s.ts.lines.length ∨ id ≥ s.index.count))]
      constructor
      · rfl
      · simp only [TextStore_Set]
        rw [if_neg (by omega : ¬id ≥ s.ts.lines.length)]
        simp [List.length_set]

/-- Witness for `app_save_parallel_identity`: two appends and one override. -/
theorem app_save_parallel_identity_witness :
    ([SaveOp.append ['a'] [1], SaveOp.append ['b'] [2],
        SaveOp.override 0 ['c'] [3]].foldl app_save_step (app_init 1 4)).index.count =
      ([SaveOp.append ['a'] [1], SaveOp.append ['b'] [2],
        SaveOp.override 0 ['c'] [3]].foldl app_save_step (app_init 1 4)).ts.lines.length ∧
    (0 : Nat) < 1 ∧
    ([SaveOp.append ['a'] [1], SaveOp.append ['b'] [2],
        SaveOp.override 0 ['c'] [3]].foldl app_save_step (app_init 1 4)).index.ids.getD 1 0 = 1 :=
  ⟨app_save_parallel_identity.1 1 4 _,
   Nat.zero_lt_one,
   app_save_parallel_identity.2.1 1 4 _ 1 (by decide)⟩

/-! ## inference.c / main.c — RMSNorm and embedding normalisation (C8, C9)

`f32` arithmetic is modelled as exact arithmetic in a linear ordered field
(the theorems instantiate the reals); the libm `sqrtf` is an explicit
function argument, instantiated with `Real.sqrt`.  `1e-5f` is the constant
`1 / 100000`.  The forward pass itself dispatches matrix multiplications to
GPU shaders outside this repository; the claims below are about the CPU
post-processing, whose input hidden state is an arbitrary vector. -/

/-- The sum of squares `norm += x[i] * x[i]` of `embed_text_llm` (and the
`ss` accumulation of `rmsnorm`). -/
def sumSq {K : Type} [LinearOrderedField K] (x : List K) : K :=
  (x.map fun v => v * v).sum

/-- The tail of `embed_text_llm` in main.c: `n = sqrtf(Σ x[i]²)`; if
`n > 1e-5` divide every component by `n`, else zero the output.  The output
buffer has `dim = x.length` slots either way. -/
def embed_normalize {K : Type} [LinearOrderedField K]
    [DecidableRel fun a b : K => a < b] (sqrtf : K → K) (x : List K) : List K :=
  let n := sqrtf (sumSq x)
  if n > 1 / 100000 then x.map fun v => v / n else List.replicate x.length 0

/-- `rmsnorm` from inference.c:
`ss = Σ x[i]²; ss /= size; ss += 1e-5; ss = 1/sqrt(ss); o[i] = w[i]*(ss*x[i])`
with `size = x.length` (every call site passes the length of `x`). -/
def rmsnorm {K : Type} [LinearOrderedField K] (sqrtf : K → K) (x w : List K) : List K :=
  let ss := sumSq x / (x.length : K) + 1 / 100000
  let inv := 1 / sqrtf ss
  List.zipWith (fun wi xi => wi * (inv * xi)) w x

theorem sumSq_nonneg (x : List ℝ) : 0 ≤ sumSq x := by
  apply List.sum_nonneg
  intro v hv
  rw [List.mem_map] at hv
  obtain ⟨u, _, rfl⟩ := hv
  exact mul_self_nonneg u

theorem sum_map_div (l : List ℝ) (c : ℝ) : (l.map fun v => v / c).sum = l.sum / c := by
  induction l with
  | nil => simp
  | cons a l ih => simp [ih, add_div]

theorem sumSq_map_div (x : List ℝ) (c : ℝ) :
    sumSq (x.map fun v => v / c) = sumSq x / (c * c) := by
  unfold sumSq
  rw [List.map_map, ← sum_map_div, List.map_map]
  congr 1
  apply List.map_congr_left
  intro v _
  simp only [Function.comp]
  rw [div_mul_div_comm]

/-- C8: `embed` always produces a vector of exactly `dim` elements; when the
L2 norm `n` of the final hidden state exceeds `1e-5` the output is the state
divided by `n` and has unit L2 norm, otherwise the output is the zero
vector. -/
theorem embed_unit_norm_or_zero (x : List ℝ) (dim : Nat) (h : x.length = dim) :
    (embed_normalize Real.sqrt x).length = dim ∧
    (Real.sqrt (sumSq (embed_normalize Real.sqrt x)) = 1 ∨
      embed_normalize Real.sqrt x = List.replicate dim 0) ∧
    (Real.sqrt (sumSq x) > 1 / 100000 →
      embed_normalize Real.sqrt x = x.map (fun v => v / Real.sqrt (sumSq x)) ∧
      Real.sqrt (sumSq (embed_normalize Real.sqrt x)) = 1) ∧
    (¬Real.sqrt (sumSq x) > 1 / 100000 →
      embed_normalize Real.sqrt x = List.replicate dim 0) := by
  by_cases hn : Real.sqrt (sumSq x) > 1 / 100000
  · have hpos : (0 : ℝ) < Real.sqrt (sumSq x) := lt_trans (by norm_num) hn
    have hssq : Real.sqrt (sumSq x) * Real.sqrt (sumSq x) = sumSq x :=
      Real.mul_self_sqrt (sumSq_nonneg x)
    have hsum_pos : (0 : ℝ) < sumSq x := by
      rw [← hssq]
      positivity
    have hemb : embed_normalize Real.sqrt x = x.map fun v => v / Real.sqrt (sumSq x) := by
      simp only [embed_normalize, hn, if_true]
    have hunit : Real.sqrt (sumSq (embed_normalize Real.sqrt x)) = 1 := by
      rw [hemb, sumSq_map_div, hssq, div_self (ne_of_gt hsum_pos), Real.sqrt_one]
    refine ⟨?_, Or.inl hunit, fun _ => ⟨hemb, hunit⟩, fun hcon => absurd hn hcon⟩
    rw [hemb, List.length_map, h]
  · have hemb : embed_normalize Real.sqrt x = List.replicate dim 0 := by
      simp only [embed_normalize, hn, if_false]
      rw [h]
    refine ⟨?_, Or.inr hemb, fun hcon => absurd hcon hn, fun _ => hemb⟩
    rw [hemb, List.length_replicate]

/-- Witness for `embed_unit_norm_or_zero` at the hidden state `[1, 0]`. -/
theorem embed_unit_norm_or_zero_witness :
    ([(1 : ℝ), 0].length = 2) ∧
    ((embed_normalize Real.sqrt [(1 : ℝ), 0]).length = 2 ∧
      (Real.sqrt (sumSq (embed_normalize Real.sqrt [(1 : ℝ), 0])) = 1 ∨
        embed_normalize Real.sqrt [(1 : ℝ), 0] = List.replicate 2 0) ∧
      (Real.sqrt (sumSq [(1 : ℝ), 0]) > 1 / 100000 →
        embed_normalize Real.sqrt [(1 : ℝ), 0] =
          [(1 : ℝ), 0].map (fun v => v / Real.sqrt (sumSq [(1 : ℝ), 0])) ∧
        Real.sqrt (sumSq (embed_normalize Real.sqrt [(1 : ℝ), 0])) = 1) ∧
      (¬Real.sqrt (sumSq [(1 : ℝ), 0]) > 1 / 100000 →
        embed_normalize Real.sqrt [(1 : ℝ), 0] = List.replicate 2 0)) :=
  ⟨rfl, embed_unit_norm_or_zero [(1 : ℝ), 0] 2 rfl⟩

/-- C9 — counterexample to the claim as frozen: scaling the input of
`rmsnorm` by a positive constant does NOT leave the output unchanged, because
of the `+ 1e-5` term inside the square root.  With `w = [1]`, input `[1]`
scaled by `c = 2`: the outputs are `2/sqrt(4 + 1e-5)` and `1/sqrt(1 + 1e-5)`,
which differ (their squares are `4/(4+1e-5)` and `1/(1+1e-5)`). -/
theorem rmsnorm_scale_cex :
    ([(2 : ℝ)] = ([(1 : ℝ)].map fun v => (2 : ℝ) * v)) ∧ (0 : ℝ) < 2 ∧
    rmsnorm Real.sqrt [(2 : ℝ)] [(1 : ℝ)] ≠ rmsnorm Real.sqrt [(1 : ℝ)] [(1 : ℝ)] := by
  refine ⟨by norm_num, by norm_num, ?_⟩
  intro heq
  have e1 : rmsnorm Real.sqrt [(2 : ℝ)] [(1 : ℝ)] =
      [1 * (1 / Real.sqrt (400001 / 100000) * 2)] := by
    unfold rmsnorm sumSq
    norm_num
  have e2 : rmsnorm Real.sqrt [(1 : ℝ)] [(1 : ℝ)] =
      [1 * (1 / Real.sqrt (100001 / 100000) * 1)] := by
    unfold rmsnorm sumSq
    norm_num
  rw [e1, e2] at heq
  simp only [List.cons.injEq, and_true, one_mul, mul_one] at heq
  have ha : (0 : ℝ) < Real.sqrt (400001 / 100000) := Real.sqrt_pos.mpr (by norm_num)
  have hb : (0 : ℝ) < Real.sqrt (100001 / 100000) := Real.sqrt_pos.mpr (by norm_num)
  have hcross : 2 * Real.sqrt (100001 / 100000) = Real.sqrt (400001 / 100000) := by
    have h2 : (2 : ℝ) / Real.sqrt (400001 / 100000) = 1 / Real.sqrt (100001 / 100000) := by
      rw [← heq]
      ring
    rw [div_eq_div_iff (ne_of_gt ha) (ne_of_gt hb)] at h2
    linarith [h2]
  have hsq := congrArg (fun t : ℝ => t ^ 2) hcross
  simp only [mul_pow] at hsq
  rw [Real.sq_sqrt (by norm_num : (100001 / 100000 : ℝ) ≥ 0),
    Real.sq_sqrt (by norm_num : (400001 / 100000 : ℝ) ≥ 0)] at hsq
  norm_num at hsq

theorem zipWith_eq_imp_zip {f g : ℝ → ℝ → ℝ} :
    ∀ (w x : List ℝ), List.zipWith f w x = List.zipWith g w x →
      ∀ p ∈ w.zip x, f p.1 p.2 = g p.1 p.2 := by
  intro w
  induction w with
  | nil => intro x h p hp; simp at hp
  | cons a w ih =>
    intro x h p hp
    cases x with
    | nil => simp at hp
    | cons b x =>
      simp only [List.zipWith_cons_cons, List.cons.injEq] at h
      simp only [List.zip_cons_cons, List.mem_cons] at hp
      rcases hp with rfl | hp
      · exact h.1
      · exact ih x h.2 p hp

theorem zipWith_congr_zip {f g : ℝ → ℝ → ℝ} :
    ∀ (w x : List ℝ), (∀ p ∈ w.zip x, f p.1 p.2 = g p.1 p.2) →
      List.zipWith f w x = List.zipWith g w x := by
  intro w
  induction w with
  | nil => intro x _; simp
  | cons a w ih =>
    intro x h
    cases x with
    | nil => simp
    | cons b x =>
      simp only [List.zipWith_cons_cons, List.cons.injEq]
      refine ⟨h (a, b) (by simp), ih x ?_⟩
      intro p hp
      exact h p (by simp [hp])

theorem sumSq_map_mul (x : List ℝ) (c : ℝ) :
    sumSq (x.map fun v => c * v) = c ^ 2 * sumSq x := by
  unfold sumSq
  rw [List.map_map]
  induction x with
  | nil => simp
  | cons a l ih =>
    simp only [List.map_cons, List.sum_cons, Function.comp, ih]
    ring

/-- C9, amended: with the `1e-5` stabiliser inside the square root, scaling
the input of `rmsnorm` by a positive constant `c` leaves the output unchanged
exactly when `c = 1` or every product `w[i] * x[i]` vanishes (in particular
on the zero vector); for any other input the output changes. -/
theorem rmsnorm_scale_invariance_iff (c : ℝ) (hc : 0 < c) (x w : List ℝ) :
    rmsnorm Real.sqrt (x.map fun v => c * v) w = rmsnorm Real.sqrt x w ↔
      (c = 1 ∨ ∀ p ∈ w.zip x, p.1 * p.2 = 0) := by
  have hq : (0 : ℝ) ≤ sumSq x / (x.length : ℝ) :=
    div_nonneg (sumSq_nonneg x) (Nat.cast_nonneg _)
  set q : ℝ := sumSq x / (x.length : ℝ) with hqdef
  have hssA : sumSq (x.map fun v => c * v) / ((x.map fun v => c * v).length : ℝ) +
      1 / 100000 = c ^ 2 * q + 1 / 100000 := by
    rw [sumSq_map_mul, List.length_map, hqdef, mul_div_assoc]
  have hA : (0 : ℝ) < c ^ 2 * q + 1 / 100000 := by positivity
  have hB : (0 : ℝ) < q + 1 / 100000 := by positivity
  have hsA : (0 : ℝ) < Real.sqrt (c ^ 2 * q + 1 / 100000) := Real.sqrt_pos.mpr hA
  have hsB : (0 : ℝ) < Real.sqrt (q + 1 / 100000) := Real.sqrt_pos.mpr hB
  have hlhs : rmsnorm Real.sqrt (x.map fun v => c * v) w =
      List.zipWith
        (fun wi xi => wi * (1 / Real.sqrt (c ^ 2 * q + 1 / 100000) * (c * xi))) w x := by
    unfold rmsnorm
    rw [hssA]
    rw [List.zipWith_map_right]
  have hrhs : rmsnorm Real.sqrt x w =
      List.zipWith (fun wi xi => wi * (1 / Real.sqrt (q + 1 / 100000) * xi)) w x := by
    unfold rmsnorm
    rfl
  rw [hlhs, hrhs]
  constructor
  · intro heq
    by_cases hall : ∀ p ∈ w.zip x, p.1 * p.2 = 0
    · exact Or.inr hall
    · left
      push_neg at hall
      obtain ⟨p, hp, hpne⟩ := hall
      have hpt := zipWith_eq_imp_zip w x heq p hp
      have hfac : (1 / Real.sqrt (c ^ 2 * q + 1 / 100000) * c) * (p.1 * p.2) =
          (1 / Real.sqrt (q + 1 / 100000)) * (p.1 * p.2) := by
        linear_combination hpt
      have hkey : 1 / Real.sqrt (c ^ 2 * q + 1 / 100000) * c =
          1 / Real.sqrt (q + 1 / 100000) := mul_right_cancel₀ hpne hfac
      have hcross : c * Real.sqrt (q + 1 / 100000) =
          Real.sqrt (c ^ 2 * q + 1 / 100000) := by
        have h2 : c / Real.sqrt (c ^ 2 * q + 1 / 100000) =
            1 / Real.sqrt (q + 1 / 100000) := by
          rw [← hkey]
          ring
        rw [div_eq_div_iff (ne_of_gt hsA) (ne_of_gt hsB)] at h2
        linarith [h2]
      have hsq := congrArg (fun t : ℝ => t ^ 2) hcross
      simp only [mul_pow] at hsq
      rw [Real.sq_sqrt (le_of_lt hB), Real.sq_sqrt (le_of_lt hA)] at hsq
      have hc2 : c ^ 2 = 1 := by nlinarith [hsq]
      nlinarith [hc2, hc, sq_nonneg (c - 1)]
  · intro hor
    rcases hor with rfl | hall
    · simp
    · apply zipWith_congr_zip
      intro p hp
      have hz := hall p hp
      have e1 : p.1 * (1 / Real.sqrt (c ^ 2 * q + 1 / 100000) * (c * p.2)) =
          (1 / Real.sqrt (c ^ 2 * q + 1 / 100000) * c) * (p.1 * p.2) := by ring
      have e2 : p.1 * (1 / Real.sqrt (q + 1 / 100000) * p.2) =
          (1 / Real.sqrt (q + 1 / 100000)) * (p.1 * p.2) := by ring
      rw [e1, e2, hz, mul_zero, mul_zero]

theorem rmsnorm_scale_invariance_iff_witness :
    (0 : ℝ) < 2 ∧
      (rmsnorm Real.sqrt (([(1 : ℝ)]).map fun v => 2 * v) [1] =
          rmsnorm Real.sqrt [(1 : ℝ)] [1] ↔
        ((2 : ℝ) = 1 ∨ ∀ p ∈ ([(1 : ℝ)]).zip [(1 : ℝ)], p.1 * p.2 = 0)) :=
  ⟨by norm_num, rmsnorm_scale_invariance_iff 2 (by norm_num) [1] [1]⟩
